import Mathlib

/-!
Verification of the LR(0) automaton-construction core (lr0.rs).

The Rust source is shallowly embedded: the packed integer arrays (ritem,
rlhs, rrhs, kernel_base, kernel_end, kernel_items, derives, derives_rules)
become lists of integers accessed through a total read helper, in-place
mutation becomes functional update, the growing state table becomes a list
that is only appended to, and the single fatal condition (the 32767 state
limit assertion in get_state) becomes an Option.  The grammar object and
the closure collaborator live outside the translated file; they are
modelled from the specification where needed.
-/

namespace Racc

/-- Total read of an integer array: out-of-range reads default to 0,
matching the fact that all executed reads in the source are in bounds. -/
def geti (l : List Int) (i : Nat) : Int := l.getD i 0

/-- The grammar object consumed by the core (external collaborator).
Modelled from the spec: flattened rule-item sequence ritem with negative
end-of-rule sentinels, per-rule left-hand symbol rlhs and right-hand-side
start offset rrhs, symbol and rule counts, and the augmented start symbol. -/
structure Grammar where
  nsyms : Nat
  nrules : Nat
  nvars : Nat
  nitems : Nat
  start_symbol : Nat
  ritem : List Int
  rlhs : List Int
  rrhs : List Int
deriving DecidableEq

/-- An automaton state: the symbol shifted to reach it and its ordered
kernel item list (struct Core in the source). -/
structure Core where
  accessing_symbol : Nat
  items : List Int
deriving DecidableEq

instance : Inhabited Core := ⟨⟨0, []⟩⟩

/-- A shift record: origin state and destination state indices. -/
structure Shifts where
  state : Nat
  shifts : List Int
deriving DecidableEq

/-- A reduction record: state and the rule numbers reducible there. -/
structure Reductions where
  state : Nat
  rules : List Int
deriving DecidableEq

/-- The bundle returned by compute_lr0. -/
structure LR0Output where
  states : List Core
  shifts : List Shifts
  reductions : List Reductions
  nullable : List Bool
  derives : List Int
  derives_rules : List Int
deriving DecidableEq

/-- The mutable intermediate state of the builder (struct LR0State in the
source, minus the grammar reference which is passed separately). -/
structure LR0State where
  state_set : List (List Nat)
  states : List Core
  kernel_base : List Int
  kernel_end : List Int
  kernel_items : List Int
deriving DecidableEq

/-- set_derives: for every symbol from start_symbol to the last symbol,
record the current write position into derives, append every rule index
whose left side equals that symbol, then append the -1 sentinel. -/
def set_derives (g : Grammar) : List Int × List Int :=
  (List.range' g.start_symbol (g.nsyms - g.start_symbol)).foldl
    (fun acc lhs =>
      let derives := acc.1.set lhs (acc.2.length : Int)
      let dr := (List.range g.nrules).foldl
        (fun dr r => if geti g.rlhs r = (lhs : Int) then dr ++ [(r : Int)] else dr) acc.2
      (derives, dr ++ [-1]))
    (List.replicate g.nsyms 0, [])

/-- initialize_states: state 0 is built from the derives span of the start
symbol; its kernel items are the right-hand-side start positions of the
start rules, its accessing symbol is 0. -/
def initialize_states (g : Grammar) (derives derives_rules : List Int) : List Core :=
  let start_derives := (geti derives g.start_symbol).toNat
  [{ accessing_symbol := 0,
     items := ((derives_rules.drop start_derives).takeWhile (fun r => 0 ≤ r)).map
                (fun r => geti g.rrhs r.toNat) }]

/-- One linear scan of the nullable solver, walking the remaining item
suffix and carrying the running all-symbols-nullable flag of the current
rule segment (the inner structure of the nested loops in set_nullable). -/
def nullable_scan (rlhs : List Int) : List Int → Bool → List Bool → Bool → List Bool × Bool
  | [], _, nb, done_flag => (nb, done_flag)
  | j :: rest, empty, nb, done_flag =>
    if j < 0 then
      if empty then
        let lhs := (geti rlhs (-j).toNat).toNat
        if nb.getD lhs false then nullable_scan rlhs rest true nb done_flag
        else nullable_scan rlhs rest true (nb.set lhs true) false
      else nullable_scan rlhs rest true nb done_flag
    else
      nullable_scan rlhs rest (empty && nb.getD j.toNat false) nb done_flag

/-- The outer fixed-point loop of set_nullable, over a fixed scanned item
suffix: repeat full passes until a pass sets no new bit.  The fuel bound
nsyms + 1 used below is sufficient because every non-final pass sets at
least one new bit of a bitset of size nsyms. -/
def nullable_loop (rlhs : List Int) (l : List Int) : Nat → List Bool → List Bool
  | 0, nb => nb
  | fuel + 1, nb =>
    let r := nullable_scan rlhs l true nb true
    if r.2 then r.1 else nullable_loop rlhs l fuel r.1

/-- set_nullable: fixed-point bitset computation over the item sequence,
scanning indices 1 up to nitems in every pass (the source starts its scan
at index i = 1). -/
def set_nullable (g : Grammar) : List Bool :=
  nullable_loop g.rlhs ((g.ritem.take g.nitems).drop 1) (g.nsyms + 1)
    (List.replicate g.nsyms false)

/-- Written from the claim words, for comparison with set_nullable: the
same fixed-point solver, but with every pass examining every index in the
range 0 to nitems, index 0 included. -/
def set_nullable_scan_all (g : Grammar) : List Bool :=
  nullable_loop g.rlhs (g.ritem.take g.nitems) (g.nsyms + 1)
    (List.replicate g.nsyms false)

/-- sort_shift_symbols: the source runs an in-place stable insertion sort
over the shift symbol array; on integer lists any sorted permutation is
unique as a list, so this is exactly insertion sort. -/
def sort_shift_symbols (l : List Int) : List Int :=
  List.insertionSort (fun a b => a ≤ b) l

/-- The per-symbol occurrence counting pass of compute_lr0: one pass over
all item positions counts, per symbol, how many times it appears as a
non-end-of-rule item. -/
def symbol_count (g : Grammar) : List Int :=
  (List.range g.nitems).foldl
    (fun sc i =>
      let symbol := geti g.ritem i
      if 0 ≤ symbol then sc.set symbol.toNat (geti sc symbol.toNat + 1) else sc)
    (List.replicate g.nsyms 0)

/-- Total size of the kernel item arena (kernel_items_count in the source). -/
def kernel_items_count (g : Grammar) : Nat :=
  (List.range g.nitems).countP (fun i => 0 ≤ geti g.ritem i)

/-- The prefix sum over symbol_count giving each symbol its arena region
start (kernel_base in the source). -/
def kernel_base_of (g : Grammar) : List Int :=
  ((List.range g.nsyms).foldl
    (fun (acc : List Int × Nat) i =>
      (acc.1.set i (acc.2 : Int), acc.2 + (geti (symbol_count g) i).toNat))
    (List.replicate g.nsyms 0, 0)).1

/-- One item of the new_item_sets scan: for an item whose ritem value is
a positive symbol, record the symbol on first touch and append the
advanced item into that symbol region of the arena. -/
def nis_step (g : Grammar) (acc : LR0State × List Int) (it : Int) :
    LR0State × List Int :=
  let symbol := geti g.ritem it.toNat
  if 0 < symbol then
    let l := acc.1
    let ksp := geti l.kernel_end symbol.toNat
    let ss := if ksp = -1 then acc.2 ++ [symbol] else acc.2
    let ksp := if ksp = -1 then geti l.kernel_base symbol.toNat else ksp
    ({ l with
        kernel_items := l.kernel_items.set ksp.toNat (it + 1),
        kernel_end := l.kernel_end.set symbol.toNat (ksp + 1) }, ss)
  else acc

/-- new_item_sets: reset the kernel_end cursors to -1, then run the scan
over every item of the closure, producing the shift-symbol list. -/
def new_item_sets (g : Grammar) (lr0 : LR0State) (item_set : List Int) :
    LR0State × List Int :=
  item_set.foldl (nis_step g)
    ({ lr0 with kernel_end := lr0.kernel_end.map (fun _ => (-1 : Int)) }, [])

/-- save_reductions: collect, in scan order, the negated rule numbers of
all closure items whose ritem value is negative, and append a Reductions
entry exactly when that list is non-empty. -/
def save_reductions (g : Grammar) (this_state : Nat) (item_set : List Int)
    (reductions : List Reductions) : List Reductions :=
  let red_set := item_set.foldl
    (fun rs i =>
      let item := geti g.ritem i.toNat
      if item < 0 then rs ++ [-item] else rs) []
  if red_set.length ≠ 0 then reductions ++ [⟨this_state, red_set⟩] else reductions

/-- The pending kernel item slice staged for a symbol in the arena:
kernel_items from kernel_base up to kernel_end of that symbol. -/
def staged_slice (lr0 : LR0State) (symbol : Nat) : List Int :=
  let isp := (geti lr0.kernel_base symbol).toNat
  let iend := (geti lr0.kernel_end symbol).toNat
  (lr0.kernel_items.drop isp).take (iend - isp)

/-- The bucket key used by get_state: the first staged kernel item. -/
def staged_key (lr0 : LR0State) (symbol : Nat) : Nat :=
  (geti lr0.kernel_items (geti lr0.kernel_base symbol).toNat).toNat

/-- The linear search of get_state through the bucket of the staged key:
first previously created state whose kernel item list equals the staged
slice (length compared first, then item by item, which is list equality). -/
def bucket_probe (lr0 : LR0State) (symbol : Nat) : Option Nat :=
  (lr0.state_set.getD (staged_key lr0 symbol) []).find?
    (fun st => decide ((lr0.states.getD st default).items = staged_slice lr0 symbol))

/-- get_state: look up the staged kernel items of the given symbol in the
bucket keyed by their first item; return a matching existing state, or
append a new Core, registering it in the bucket.  The source asserts
states.len() < 0x7fff before appending; the failing assertion is the none
result. -/
def get_state (lr0 : LR0State) (symbol : Nat) : Option (LR0State × Nat) :=
  match bucket_probe lr0 symbol with
  | some st => some (lr0, st)
  | none =>
    if lr0.states.length < 0x7fff then
      let new_state := lr0.states.length
      some ({ lr0 with
        states := lr0.states ++ [⟨symbol, staged_slice lr0 symbol⟩],
        state_set := lr0.state_set.set (staged_key lr0 symbol)
          ((lr0.state_set.getD (staged_key lr0 symbol) []) ++ [new_state]) }, new_state)
    else none

/-- append_states: resolve each shift symbol, in order, to a destination
state via get_state, collecting the destination indices in that order. -/
def append_states (lr0 : LR0State) : List Int → Option (LR0State × List Int)
  | [] => some (lr0, [])
  | s :: rest =>
    match get_state lr0 s.toNat with
    | none => none
    | some (lr0₁, st) =>
      match append_states lr0₁ rest with
      | none => none
      | some (lr0₂, dests) => some (lr0₂, (st : Int) :: dests)

/-- The right-hand side of a rule as read through rrhs: the maximal run of
nonnegative ritem entries starting at the rule's start offset. -/
def ruleBody (g : Grammar) (r : Nat) : List Int :=
  (g.ritem.drop (geti g.rrhs r).toNat).takeWhile (fun s => 0 ≤ s)

/-- One expansion step of the reachable-nonterminal set used by the
modelled closure: add the leading nonterminals of rules derived from the
current set. -/
def expand_step (g : Grammar) (acc : List Nat) : List Nat :=
  acc ++ ((List.range g.nrules).filterMap (fun r =>
    if 0 ≤ geti g.rlhs r ∧ (geti g.rlhs r).toNat ∈ acc then
      match (ruleBody g r).head? with
      | some s =>
        if 0 ≤ s ∧ g.start_symbol ≤ s.toNat ∧ s.toNat ∉ acc then some s.toNat else none
      | none => none
    else none)).dedup

/-- Fuel-bounded fixed point of expand_step; nsyms steps always suffice. -/
def expand_nonterms (g : Grammar) : Nat → List Nat → List Nat
  | 0, acc => acc
  | fuel + 1, acc =>
    let acc₂ := expand_step g acc
    if acc₂.length = acc.length then acc else expand_nonterms g fuel acc₂

/-- Modelled from the spec: the external closure collaborator (and its
first-derives precomputation, folded in).  Given a kernel item list it
returns the ascending-sorted full item set: the kernel items plus the
right-hand-side start positions of every rule derivable, through chains of
leading-nonterminal expansion, from a nonterminal sitting after the dot of
some kernel item. -/
def closure (g : Grammar) (kernel : List Int) : List Int :=
  let dots := kernel.filterMap (fun it =>
    let s := geti g.ritem it.toNat
    if 0 ≤ s ∧ g.start_symbol ≤ s.toNat then some s.toNat else none)
  let nts := expand_nonterms g g.nsyms dots.dedup
  let derived := (List.range g.nrules).filterMap (fun r =>
    if 0 ≤ geti g.rlhs r ∧ (geti g.rlhs r).toNat ∈ nts then some (geti g.rrhs r) else none)
  List.insertionSort (fun a b => a ≤ b) ((kernel ++ derived).dedup)

/-- The triple threaded through the work-list loop: the intermediate
builder state plus the two growing output lists. -/
structure LoopAcc where
  lr0 : LR0State
  reductions : List Reductions
  shifts : List Shifts
deriving DecidableEq

/-- The body of one iteration of the work-list loop of compute_lr0:
closure, save_reductions, new_item_sets, sort, append_states, and the
conditional Shifts append. -/
def processState (g : Grammar) (acc : LoopAcc) (this_state : Nat) : Option LoopAcc :=
  let item_set := closure g (acc.lr0.states.getD this_state default).items
  let reductions := save_reductions g this_state item_set acc.reductions
  let staged := new_item_sets g acc.lr0 item_set
  let shift_symbol := sort_shift_symbols staged.2
  match append_states staged.1 shift_symbol with
  | none => none
  | some (lr0₃, shift_set) =>
    some { lr0 := lr0₃,
           reductions := reductions,
           shifts := if 0 < shift_symbol.length
                     then acc.shifts ++ [⟨this_state, shift_set⟩] else acc.shifts }

/-- The work-list loop: the state table doubles as work list, the cursor
advances while it is below the (growing) table length.  The fuel 0x7fff
mirrors the state limit: the cursor can never run past it. -/
def lr0Loop (g : Grammar) : Nat → LoopAcc → Nat → Option LoopAcc
  | 0, acc, this_state =>
    if this_state < acc.lr0.states.length then none else some acc
  | fuel + 1, acc, this_state =>
    if this_state < acc.lr0.states.length then
      match processState g acc this_state with
      | none => none
      | some acc₂ => lr0Loop g fuel acc₂ (this_state + 1)
    else some acc

/-- compute_lr0: derivation table, arena allocation, initial state, the
work-list loop, and the final output bundle with the nullable set. -/
def compute_lr0 (g : Grammar) : Option LR0Output :=
  let ds := set_derives g
  let lr0 : LR0State := {
    state_set := List.replicate g.nitems [],
    states := initialize_states g ds.1 ds.2,
    kernel_base := kernel_base_of g,
    kernel_end := List.replicate g.nsyms (-1),
    kernel_items := List.replicate (kernel_items_count g) 0 }
  match lr0Loop g 0x7fff { lr0 := lr0, reductions := [], shifts := [] } 0 with
  | none => none
  | some acc =>
    some { states := acc.lr0.states,
           shifts := acc.shifts,
           reductions := acc.reductions,
           nullable := set_nullable g,
           derives := ds.1,
           derives_rules := ds.2 }

/-! ## Well-formed packed grammars

Modelled from the spec: the grammar collaborator packs every real rule
(rule numbers 1 up to nrules - 1, so that the end sentinels -rule are
strictly negative) contiguously into ritem starting at index 1, each rule
as its right-hand side followed by its sentinel; rrhs points at the start
of each packed rule, so the entry preceding it is a sentinel; left-hand
symbols of packed rules are nonterminals; index 0 of ritem holds a
sentinel. -/

/-- The rule numbers whose right-hand sides are packed into ritem. -/
def packedRules (g : Grammar) : List Nat := List.range' 1 (g.nrules - 1)

/-- Modelled from the spec: well-formedness of the packed grammar object
(see the section comment above). -/
def Wf (g : Grammar) : Prop :=
  g.ritem.length = g.nitems ∧
  g.rlhs.length = g.nrules ∧
  g.rrhs.length = g.nrules ∧
  0 < g.start_symbol ∧ g.start_symbol < g.nsyms ∧
  geti g.ritem 0 < 0 ∧
  geti g.rlhs 0 = 0 ∧
  g.ritem.drop 1 = (packedRules g).flatMap (fun r => ruleBody g r ++ [-(r : Int)]) ∧
  (∀ r ∈ packedRules g, (g.start_symbol : Int) ≤ geti g.rlhs r ∧ geti g.rlhs r < (g.nsyms : Int)) ∧
  (∀ r ∈ packedRules g, ∀ s ∈ ruleBody g r, s < (g.nsyms : Int)) ∧
  (∀ r ∈ packedRules g, 1 ≤ geti g.rrhs r ∧ geti g.ritem ((geti g.rrhs r).toNat - 1) < 0)

instance (g : Grammar) : Decidable (Wf g) := by unfold Wf; infer_instance

/-! ## Concrete grammars -/

/-- Modelled from the spec: the concrete scenario grammar of the testable
properties section, encoded with the spec's own packing convention
(sentinel -ruleNumber): symbols 0 = marker, 1 = a, 2 = S-prime (the
augmented start symbol), 3 = S; rules R0: S-prime to S, R1: S to a,
R2: S to the empty string.  Note that the end sentinel of rule 0 is
-0 = 0. -/
def gC1 : Grammar :=
  { nsyms := 4, nrules := 3, nvars := 2, nitems := 5, start_symbol := 2,
    ritem := [3, 0, 1, -1, -2], rlhs := [2, 3, 3], rrhs := [0, 2, 4] }

/-- A small well-formed packed grammar used as a concrete witness input:
symbols 0 = marker, 1 = a, 2 = S-prime (start), 3 = S; rule 0 unused,
rule 1: S-prime to S, rule 2: S to a, rule 3: S to the empty string. -/
def gW : Grammar :=
  { nsyms := 4, nrules := 4, nvars := 2, nitems := 6, start_symbol := 2,
    ritem := [-1, 3, -1, 1, -2, -3], rlhs := [0, 2, 3, 3], rrhs := [0, 1, 3, 5] }

theorem gW_wf : Wf gW := by decide

/-! ## C1: the concrete scenario -/

/-- C1 counterexample: on the spec's scenario grammar the computed
reductions list is not the claimed one: no Reductions entry is produced
for state 2, because the end sentinel of the augmenting rule 0 is -0 = 0,
which the negativity test of save_reductions does not classify as a
completed rule. -/
theorem c1_counterexample :
    (compute_lr0 gC1).map LR0Output.reductions ≠
      some [⟨0, [2]⟩, ⟨1, [1]⟩, ⟨2, [0]⟩] := by decide

/-- C1 (amended): on the scenario grammar compute_lr0 produces exactly 3
states, shifts [(state 0, shifts [1, 2])], reductions
[(state 0, rules [2]), (state 1, rules [1])] with no entry for state 2,
and a nullable set containing exactly S (symbol 3). -/
theorem c1_compute_lr0_scenario :
    (compute_lr0 gC1).map
        (fun o => (o.states.length, o.shifts, o.reductions, o.nullable)) =
      some (3, [⟨0, [1, 2]⟩], [⟨0, [2]⟩, ⟨1, [1]⟩],
        [false, false, false, true]) := by decide

/-! ## C7: the single fatal condition -/

/-- C7: state creation fails fatally exactly when the table already holds
32767 states (the 15-bit signed limit) and no existing state matches: the
none result occurs iff the bucket search misses and the length bound
fails, and every successful call either returns an existing index leaving
the table untouched or appends exactly one new state while the table is
still below the limit, so no state is ever silently dropped. -/
theorem get_state_fatal_condition (lr0 : LR0State) (symbol : Nat) :
    (get_state lr0 symbol = none ↔
      (bucket_probe lr0 symbol = none ∧ 32767 ≤ lr0.states.length)) ∧
    (∀ lr0₂ idx, get_state lr0 symbol = some (lr0₂, idx) →
      (lr0₂ = lr0 ∧ bucket_probe lr0 symbol = some idx) ∨
      (lr0₂.states = lr0.states ++ [⟨symbol, staged_slice lr0 symbol⟩] ∧
        idx = lr0.states.length ∧ lr0.states.length < 32767)) := by
  unfold get_state
  cases h : bucket_probe lr0 symbol with
  | some st =>
    refine ⟨by simp, ?_⟩
    intro lr0₂ idx he
    simp only [Option.some.injEq, Prod.mk.injEq] at he
    exact Or.inl ⟨he.1.symm, by rw [he.2]⟩
  | none =>
    by_cases hl : lr0.states.length < 0x7fff
    · simp only [if_pos hl]
      refine ⟨by simp; omega, ?_⟩
      intro lr0₂ idx he
      simp only [Option.some.injEq, Prod.mk.injEq] at he
      exact Or.inr ⟨by rw [← he.1], he.2.symm, by exact hl⟩
    · simp only [if_neg hl]
      exact ⟨by simp; omega, by intro lr0₂ idx he; simp at he⟩

/-- A concrete builder state in which get_state for symbol 1 finds one
staged kernel item and no matching existing state. -/
def lr0W : LR0State :=
  { state_set := [[], [], [], [], [], []],
    states := [⟨0, [1]⟩],
    kernel_base := [0, 0],
    kernel_end := [-1, 1],
    kernel_items := [5, 9] }

/-- The builder state produced from lr0W by that call. -/
def lr0WRes : LR0State :=
  { state_set := [[], [], [], [], [], [1]],
    states := [⟨0, [1]⟩, ⟨1, [5]⟩],
    kernel_base := [0, 0],
    kernel_end := [-1, 1],
    kernel_items := [5, 9] }

/-- Witness for C7: a concrete successful creation below the limit. -/
theorem get_state_fatal_condition_witness :
    get_state lr0W 1 = some (lr0WRes, 1) ∧
    ((lr0WRes = lr0W ∧ bucket_probe lr0W 1 = some 1) ∨
      (lr0WRes.states = lr0W.states ++ [⟨1, staged_slice lr0W 1⟩] ∧
        1 = lr0W.states.length ∧ lr0W.states.length < 32767)) :=
  ⟨by decide, (get_state_fatal_condition lr0W 1).2 lr0WRes 1 (by decide)⟩

/-! ## The nullable solver: rule-level characterization -/

/-- Rule-level rendering of one solver pass: for each rule in order, if
every right-hand-side symbol is already nullable, set the left-hand
symbol, clearing the done flag when a new bit appears. -/
def rule_scan (g : Grammar) : List Nat → List Bool → Bool → List Bool × Bool
  | [], nb, done_flag => (nb, done_flag)
  | r :: rs, nb, done_flag =>
    if (ruleBody g r).all (fun s => nb.getD s.toNat false) then
      if nb.getD (geti g.rlhs r).toNat false then rule_scan g rs nb done_flag
      else rule_scan g rs (nb.set (geti g.rlhs r).toNat true) false
    else rule_scan g rs nb done_flag

/-- Rule-level rendering of the whole fixed-point solver. -/
def rule_nullable_loop (g : Grammar) : Nat → List Bool → List Bool
  | 0, nb => nb
  | fuel + 1, nb =>
    let r := rule_scan g (packedRules g) nb true
    if r.2 then r.1 else rule_nullable_loop g fuel r.1

theorem getD_set_bool (l : List Bool) (i j : Nat) (a d : Bool) :
    (l.set i a).getD j d = if i = j ∧ j < l.length then a else l.getD j d := by
  rw [List.getD_eq_getElem?_getD, List.getD_eq_getElem?_getD, List.getElem?_set]
  by_cases hij : i = j
  · subst hij
    by_cases hl : i < l.length
    · simp [hl]
    · rw [List.getElem?_eq_none (by omega)]
      simp [hl]
  · simp [hij]

theorem nullable_scan_append_body (rlhs : List Int) (body l : List Int)
    (hb : ∀ x ∈ body, 0 ≤ x) (e : Bool) (nb : List Bool) (d : Bool) :
    nullable_scan rlhs (body ++ l) e nb d =
      nullable_scan rlhs l (e && body.all (fun s => nb.getD s.toNat false)) nb d := by
  induction body generalizing e with
  | nil => simp
  | cons x xs ih =>
    have hx : ¬ x < 0 := by have := hb x (by simp); omega
    simp only [List.cons_append, nullable_scan, if_neg hx, List.append_eq]
    rw [ih (fun y hy => hb y (by simp [hy]))]
    congr 1
    simp [Bool.and_assoc]

theorem nullable_scan_sentinel (rlhs : List Int) (r : Nat) (hr : 1 ≤ r)
    (l : List Int) (e : Bool) (nb : List Bool) (d : Bool) :
    nullable_scan rlhs (-(r : Int) :: l) e nb d =
      if e then
        (if nb.getD (geti rlhs r).toNat false then nullable_scan rlhs l true nb d
         else nullable_scan rlhs l true (nb.set (geti rlhs r).toNat true) false)
      else nullable_scan rlhs l true nb d := by
  have hneg : -(r : Int) < 0 := by omega
  have htn : (-(-(r : Int))).toNat = r := by omega
  simp only [nullable_scan, if_pos hneg, htn]

theorem nullable_scan_flatMap (g : Grammar) (rs : List Nat)
    (hrs : ∀ r ∈ rs, 1 ≤ r) (nb : List Bool) (d : Bool) :
    nullable_scan g.rlhs (rs.flatMap (fun r => ruleBody g r ++ [-(r : Int)])) true nb d =
      rule_scan g rs nb d := by
  induction rs generalizing nb d with
  | nil => rfl
  | cons r rs ih =>
    rw [List.flatMap_cons, List.append_assoc,
      nullable_scan_append_body _ _ _
        (fun x hx => by simpa using List.mem_takeWhile_imp hx),
      List.singleton_append, nullable_scan_sentinel _ r (hrs r (by simp)),
      Bool.true_and]
    have hrs₂ : ∀ x ∈ rs, 1 ≤ x := fun x hx => hrs x (by simp [hx])
    by_cases hall : (ruleBody g r).all (fun s => nb.getD s.toNat false) = true
    · rw [if_pos hall]
      by_cases hset : nb.getD (geti g.rlhs r).toNat false = true
      · rw [if_pos hset, ih hrs₂]
        simp only [rule_scan, if_pos hall, if_pos hset]
      · rw [if_neg hset, ih hrs₂]
        simp only [rule_scan, if_pos hall]
        rw [if_neg hset]
    · rw [if_neg hall, ih hrs₂]
      simp only [rule_scan]
      rw [if_neg hall]

theorem packedRules_one_le (g : Grammar) : ∀ r ∈ packedRules g, 1 ≤ r := by
  intro r hr
  exact (List.mem_range'_1.mp hr).1

theorem nullable_loop_eq_rule_loop (g : Grammar) (hwf : Wf g) :
    ∀ fuel nb,
      nullable_loop g.rlhs ((g.ritem.take g.nitems).drop 1) fuel nb =
        rule_nullable_loop g fuel nb := by
  have hscan : (g.ritem.take g.nitems).drop 1 =
      (packedRules g).flatMap (fun r => ruleBody g r ++ [-(r : Int)]) := by
    obtain ⟨hlen, -, -, -, -, -, -, htile, -⟩ := hwf
    rw [← hlen, List.take_length ..]
    exact htile
  intro fuel
  induction fuel with
  | zero => intro nb; rfl
  | succ fuel ih =>
    intro nb
    simp only [nullable_loop, rule_nullable_loop, hscan,
      nullable_scan_flatMap g (packedRules g) (packedRules_one_le g)]
    by_cases hdone : (rule_scan g (packedRules g) nb true).2 = true
    · rw [if_pos hdone, if_pos hdone]
    · rw [if_neg hdone, if_neg hdone, ← hscan, ih]

theorem rule_scan_stays_false (g : Grammar) (rs : List Nat) (nb : List Bool) :
    (rule_scan g rs nb false).2 = false := by
  induction rs generalizing nb with
  | nil => rfl
  | cons r rs ih =>
    simp only [rule_scan]
    by_cases hall : (ruleBody g r).all (fun s => nb.getD s.toNat false) = true
    · rw [if_pos hall]
      by_cases hset : nb.getD (geti g.rlhs r).toNat false = true
      · rw [if_pos hset]; exact ih nb
      · rw [if_neg hset]; exact ih _
    · rw [if_neg hall]; exact ih nb

theorem rule_scan_done (g : Grammar) (rs : List Nat) (nb : List Bool)
    (h : (rule_scan g rs nb true).2 = true) :
    (rule_scan g rs nb true).1 = nb ∧
    ∀ r ∈ rs, (ruleBody g r).all (fun s => nb.getD s.toNat false) = true →
      nb.getD (geti g.rlhs r).toNat false = true := by
  induction rs generalizing nb with
  | nil => exact ⟨rfl, by simp⟩
  | cons r rs ih =>
    simp only [rule_scan] at h
    by_cases hall : (ruleBody g r).all (fun s => nb.getD s.toNat false) = true
    · rw [if_pos hall] at h
      by_cases hset : nb.getD (geti g.rlhs r).toNat false = true
      · rw [if_pos hset] at h
        obtain ⟨h1, h2⟩ := ih nb h
        refine ⟨by simp only [rule_scan, if_pos hall, if_pos hset]; exact h1, ?_⟩
        intro r₂ hr₂
        rcases List.mem_cons.mp hr₂ with rfl | hmem
        · intro _; exact hset
        · exact h2 r₂ hmem
      · rw [if_neg hset] at h
        rw [rule_scan_stays_false] at h
        exact absurd h (by simp)
    · rw [if_neg hall] at h
      obtain ⟨h1, h2⟩ := ih nb h
      refine ⟨by simp only [rule_scan]; rw [if_neg hall]; exact h1, ?_⟩
      intro r₂ hr₂
      rcases List.mem_cons.mp hr₂ with rfl | hmem
      · intro hc; exact absurd hc hall
      · exact h2 r₂ hmem

theorem rule_scan_length (g : Grammar) (rs : List Nat) (nb : List Bool) (d : Bool) :
    (rule_scan g rs nb d).1.length = nb.length := by
  induction rs generalizing nb d with
  | nil => rfl
  | cons r rs ih =>
    simp only [rule_scan]
    by_cases hall : (ruleBody g r).all (fun s => nb.getD s.toNat false) = true
    · rw [if_pos hall]
      by_cases hset : nb.getD (geti g.rlhs r).toNat false = true
      · rw [if_pos hset]; exact ih nb d
      · rw [if_neg hset]; rw [ih _ false, List.length_set]
    · rw [if_neg hall]; exact ih nb d

theorem count_set_true (l : List Bool) (i : Nat) (hi : i < l.length)
    (hf : l.getD i false = false) :
    (l.set i true).count true = l.count true + 1 := by
  induction l generalizing i with
  | nil => simp at hi
  | cons x xs ih =>
    cases i with
    | zero =>
      simp only [List.getD_cons_zero] at hf
      subst hf
      simp [List.count_cons]
    | succ i =>
      simp only [List.getD_cons_succ] at hf
      simp only [List.length_cons, Nat.add_lt_add_iff_right] at hi
      simp only [List.set_cons_succ, List.count_cons, ih i hi hf]
      omega

theorem rule_scan_count_le (g : Grammar) (rs : List Nat) (nb : List Bool) (d : Bool) :
    nb.count true ≤ (rule_scan g rs nb d).1.count true := by
  induction rs generalizing nb d with
  | nil => exact Nat.le_refl _
  | cons r rs ih =>
    simp only [rule_scan]
    by_cases hall : (ruleBody g r).all (fun s => nb.getD s.toNat false) = true
    · rw [if_pos hall]
      by_cases hset : nb.getD (geti g.rlhs r).toNat false = true
      · rw [if_pos hset]; exact ih nb d
      · rw [if_neg hset]
        by_cases hin : (geti g.rlhs r).toNat < nb.length
        · have := count_set_true nb _ hin (by simpa using hset)
          have h₂ := ih (nb.set (geti g.rlhs r).toNat true) false
          omega
        · rw [List.set_eq_of_length_le (by omega)]
          exact ih nb false
    · rw [if_neg hall]; exact ih nb d

theorem rule_scan_progress (g : Grammar) (rs : List Nat) (nb : List Bool)
    (hlhs : ∀ r ∈ rs, (geti g.rlhs r).toNat < nb.length)
    (h : (rule_scan g rs nb true).2 = false) :
    nb.count true < (rule_scan g rs nb true).1.count true := by
  induction rs generalizing nb with
  | nil => exact absurd h (by simp [rule_scan])
  | cons r rs ih =>
    simp only [rule_scan] at h ⊢
    by_cases hall : (ruleBody g r).all (fun s => nb.getD s.toNat false) = true
    · rw [if_pos hall] at h ⊢
      by_cases hset : nb.getD (geti g.rlhs r).toNat false = true
      · rw [if_pos hset] at h ⊢
        exact ih nb (fun r₂ h₂ => hlhs r₂ (by simp [h₂])) h
      · rw [if_neg hset] at h ⊢
        have hin : (geti g.rlhs r).toNat < nb.length := hlhs r (by simp)
        have hc := count_set_true nb _ hin (by simpa using hset)
        have h₂ := rule_scan_count_le g rs (nb.set (geti g.rlhs r).toNat true) false
        omega
    · rw [if_neg hall] at h ⊢
      exact ih nb (fun r₂ h₂ => hlhs r₂ (by simp [h₂])) h

theorem rule_nullable_loop_closed (g : Grammar)
    (hlhs : ∀ r ∈ packedRules g, (geti g.rlhs r).toNat < g.nsyms) :
    ∀ fuel nb, nb.length = g.nsyms → nb.length < nb.count true + fuel →
      (∀ r ∈ packedRules g,
        (ruleBody g r).all
            (fun s => (rule_nullable_loop g fuel nb).getD s.toNat false) = true →
        (rule_nullable_loop g fuel nb).getD (geti g.rlhs r).toNat false = true) := by
  intro fuel
  induction fuel with
  | zero =>
    intro nb hlen hcnt
    have := List.count_le_length true nb
    omega
  | succ fuel ih =>
    intro nb hlen hcnt
    simp only [rule_nullable_loop]
    by_cases hdone : (rule_scan g (packedRules g) nb true).2 = true
    · rw [if_pos hdone]
      obtain ⟨heq, hclosed⟩ := rule_scan_done g (packedRules g) nb hdone
      rw [heq]
      exact hclosed
    · rw [if_neg hdone]
      have hprog := rule_scan_progress g (packedRules g) nb
        (fun r hr => by rw [hlen]; exact hlhs r hr) (by simpa using hdone)
      have hl := rule_scan_length g (packedRules g) nb true
      exact ih _ (by omega) (by omega)

/-- The nullability relation generated inductively by the packed rules:
the least set closed under every rule whose whole right-hand side is in
the set. -/
inductive RuleNullable (g : Grammar) : Nat → Prop where
  | step (r : Nat) (hr : r ∈ packedRules g)
      (hbody : ∀ s ∈ ruleBody g r, RuleNullable g s.toNat) :
      RuleNullable g (geti g.rlhs r).toNat

theorem rule_scan_sound (g : Grammar) (rs : List Nat)
    (hsub : ∀ r ∈ rs, r ∈ packedRules g) (nb : List Bool) (d : Bool)
    (hnb : ∀ n, nb.getD n false = true → RuleNullable g n) :
    ∀ n, (rule_scan g rs nb d).1.getD n false = true → RuleNullable g n := by
  induction rs generalizing nb d with
  | nil => exact hnb
  | cons r rs ih =>
    simp only [rule_scan]
    by_cases hall : (ruleBody g r).all (fun s => nb.getD s.toNat false) = true
    · rw [if_pos hall]
      by_cases hset : nb.getD (geti g.rlhs r).toNat false = true
      · rw [if_pos hset]
        exact ih (fun r₂ h₂ => hsub r₂ (by simp [h₂])) nb d hnb
      · rw [if_neg hset]
        refine ih (fun r₂ h₂ => hsub r₂ (by simp [h₂])) _ false ?_
        intro n hn
        rw [getD_set_bool] at hn
        by_cases hc : (geti g.rlhs r).toNat = n ∧ n < nb.length
        · rw [← hc.1]
          exact RuleNullable.step r (hsub r (by simp))
            (fun s hs => hnb s.toNat (List.all_eq_true.mp hall s hs))
        · rw [if_neg hc] at hn
          exact hnb n hn
    · rw [if_neg hall]
      exact ih (fun r₂ h₂ => hsub r₂ (by simp [h₂])) nb d hnb

theorem rule_nullable_loop_sound (g : Grammar) :
    ∀ fuel nb, (∀ n, nb.getD n false = true → RuleNullable g n) →
      ∀ n, (rule_nullable_loop g fuel nb).getD n false = true → RuleNullable g n := by
  intro fuel
  induction fuel with
  | zero => exact fun nb h => h
  | succ fuel ih =>
    intro nb hnb
    simp only [rule_nullable_loop]
    by_cases hdone : (rule_scan g (packedRules g) nb true).2 = true
    · rw [if_pos hdone]
      exact rule_scan_sound g (packedRules g) (fun r h => h) nb true hnb
    · rw [if_neg hdone]
      exact ih _ (rule_scan_sound g (packedRules g) (fun r h => h) nb true hnb)

/-! ## C3: the nullable set is the least fixed point -/

/-- C3: for a well-formed grammar, the bitset computed by set_nullable is
the least fixed point of the packed rules: a symbol bit is set iff some
packed rule with that left side has a right-hand side whose symbols all
have their bits set (vacuously so for an empty right-hand side); the set
is below every set closed under the rules; and no terminal bit (symbol
below start_symbol) is ever set. -/
theorem set_nullable_least_fixed_point (g : Grammar) (hwf : Wf g) :
    (∀ n, (set_nullable g).getD n false = true ↔
      ∃ r ∈ packedRules g, (geti g.rlhs r).toNat = n ∧
        ∀ s ∈ ruleBody g r, (set_nullable g).getD s.toNat false = true) ∧
    (∀ N : Nat → Prop,
      (∀ r ∈ packedRules g,
        (∀ s ∈ ruleBody g r, N s.toNat) → N (geti g.rlhs r).toNat) →
      ∀ n, (set_nullable g).getD n false = true → N n) ∧
    (∀ t, t < g.start_symbol → (set_nullable g).getD t false = false) := by
  have hlhs : ∀ r ∈ packedRules g,
      g.start_symbol ≤ (geti g.rlhs r).toNat ∧ (geti g.rlhs r).toNat < g.nsyms := by
    obtain ⟨-, -, -, -, -, -, -, -, hrange, -⟩ := hwf
    intro r hr
    have := hrange r hr
    omega
  have heq : set_nullable g =
      rule_nullable_loop g (g.nsyms + 1) (List.replicate g.nsyms false) := by
    unfold set_nullable
    exact nullable_loop_eq_rule_loop g hwf _ _
  have hinit : ∀ n, (List.replicate g.nsyms false).getD n false = true →
      RuleNullable g n := by
    intro n hn
    rw [List.getD_eq_getElem?_getD, List.getElem?_replicate] at hn
    by_cases hc : n < g.nsyms <;> simp [hc] at hn
  have hsound : ∀ n, (set_nullable g).getD n false = true → RuleNullable g n := by
    rw [heq]
    exact rule_nullable_loop_sound g (g.nsyms + 1) _ hinit
  have hclosed : ∀ r ∈ packedRules g,
      (ruleBody g r).all (fun s => (set_nullable g).getD s.toNat false) = true →
      (set_nullable g).getD (geti g.rlhs r).toNat false = true := by
    rw [heq]
    refine rule_nullable_loop_closed g (fun r hr => (hlhs r hr).2) (g.nsyms + 1) _
      (List.length_replicate ..) ?_
    rw [List.length_replicate, List.count_replicate]
    simp
  have hcomplete : ∀ n, RuleNullable g n → (set_nullable g).getD n false = true := by
    intro n hn
    induction hn with
    | step r hr hbody ih =>
      exact hclosed r hr (List.all_eq_true.mpr (fun s hs => ih s hs))
  refine ⟨?_, ?_, ?_⟩
  · intro n
    constructor
    · intro hn
      obtain ⟨r, hr, hbody⟩ := hsound n hn
      exact ⟨r, hr, rfl, fun s hs => hcomplete _ (hbody s hs)⟩
    · rintro ⟨r, hr, rfl, hbody⟩
      exact hclosed r hr (List.all_eq_true.mpr (fun s hs => hbody s hs))
  · intro N hN n hn
    have h₂ := hsound n hn
    clear hn
    induction h₂ with
    | step r hr hbody ih => exact hN r hr (fun s hs => ih s hs)
  · intro t ht
    by_contra hc
    have ht₂ : (set_nullable g).getD t false = true := by
      cases h : (set_nullable g).getD t false
      · exact absurd h hc
      · rfl
    obtain ⟨r, hr, hbody⟩ := hsound t ht₂
    have := (hlhs r hr).1
    omega

/-- Witness for C3 at the concrete well-formed grammar gW. -/
theorem set_nullable_least_fixed_point_witness :
    Wf gW ∧
    ((∀ n, (set_nullable gW).getD n false = true ↔
      ∃ r ∈ packedRules gW, (geti gW.rlhs r).toNat = n ∧
        ∀ s ∈ ruleBody gW r, (set_nullable gW).getD s.toNat false = true) ∧
    (∀ N : Nat → Prop,
      (∀ r ∈ packedRules gW,
        (∀ s ∈ ruleBody gW r, N s.toNat) → N (geti gW.rlhs r).toNat) →
      ∀ n, (set_nullable gW).getD n false = true → N n) ∧
    (∀ t, t < gW.start_symbol → (set_nullable gW).getD t false = false)) :=
  ⟨by decide, set_nullable_least_fixed_point gW (by decide)⟩

/-! ## C8: the pass range of the nullable solver -/

/-- A well-formed grammar separating the solver from its claimed scan
range: one packed rule, S-prime to a, which is not nullable; a pass that
also examined index 0 would misread the sentinel there as an empty rule
and mark a symbol nullable. -/
def gC8 : Grammar :=
  { nsyms := 3, nrules := 2, nvars := 1, nitems := 3, start_symbol := 2,
    ritem := [-1, 1, -1], rlhs := [0, 2], rrhs := [0, 1] }

/-- C8 counterexample: on the well-formed grammar gC8 the solver result
differs from that of the identical solver whose passes examine every
index in the range 0 to nitems, so a pass of set_nullable does not
examine every index of that range: index 0 is skipped. -/
theorem c8_counterexample :
    Wf gC8 ∧ set_nullable gC8 ≠ set_nullable_scan_all gC8 := by decide

/-- C8 (amended): each pass of the nullable solver examines exactly the
indices 1 up to nitems — index 0 is skipped — which for a well-formed
grammar hold exactly the packed rule segments; hence for each rule whose
right-hand-side symbols are all already nullable the left-hand symbol
becomes nullable, and the loop repeats until a full pass sets no new
bit. -/
theorem set_nullable_scans_from_one (g : Grammar) (hwf : Wf g) :
    (g.ritem.take g.nitems).drop 1 =
      (packedRules g).flatMap (fun r => ruleBody g r ++ [-(r : Int)]) ∧
    set_nullable g =
      rule_nullable_loop g (g.nsyms + 1) (List.replicate g.nsyms false) := by
  constructor
  · obtain ⟨hlen, -, -, -, -, -, -, htile, -⟩ := hwf
    rw [← hlen, List.take_length ..]
    exact htile
  · unfold set_nullable
    exact nullable_loop_eq_rule_loop g hwf _ _

/-- Witness for C8 (amended) at the concrete well-formed grammar gW. -/
theorem set_nullable_scans_from_one_witness :
    Wf gW ∧
    ((gW.ritem.take gW.nitems).drop 1 =
      (packedRules gW).flatMap (fun r => ruleBody gW r ++ [-(r : Int)]) ∧
    set_nullable gW =
      rule_nullable_loop gW (gW.nsyms + 1) (List.replicate gW.nsyms false)) :=
  ⟨by decide, set_nullable_scans_from_one gW (by decide)⟩

/-! ## C6: the derivation table -/

/-- The rule list of one nonterminal as set_derives computes it: the rule
indices, in increasing order, whose left-hand symbol is the given one. -/
def lhs_rules (g : Grammar) (lhs : Nat) : List Int :=
  ((List.range g.nrules).filter (fun r => decide (geti g.rlhs r = (lhs : Int)))).map
    (Nat.cast : Nat → Int)

/-- The -1-terminated derives_rules span of one nonterminal. -/
def chunk (g : Grammar) (lhs : Nat) : List Int := lhs_rules g lhs ++ [-1]

/-- The concatenated spans of a list of symbols. -/
def chunks (g : Grammar) (l : List Nat) : List Int := l.flatMap (chunk g)

theorem set_derives_inner (g : Grammar) (lhs : Nat) :
    ∀ (l : List Nat) (init : List Int),
      l.foldl (fun dr r => if geti g.rlhs r = (lhs : Int) then dr ++ [(r : Int)] else dr)
          init =
        init ++ (l.filter (fun r => decide (geti g.rlhs r = (lhs : Int)))).map
          (Nat.cast : Nat → Int) := by
  intro l
  induction l with
  | nil => simp
  | cons x xs ih =>
    intro init
    simp only [List.foldl_cons, List.filter_cons]
    by_cases hx : geti g.rlhs x = (lhs : Int)
    · rw [if_pos hx, ih]
      simp [hx]
    · rw [if_neg hx, ih]
      simp [hx]

theorem set_derives_inner_range (g : Grammar) (lhs : Nat) (init : List Int) :
    (List.range g.nrules).foldl
        (fun dr r => if geti g.rlhs r = (lhs : Int) then dr ++ [(r : Int)] else dr)
        init =
      init ++ lhs_rules g lhs :=
  set_derives_inner g lhs (List.range g.nrules) init

/-- One outer iteration of set_derives as a named step function. -/
def sdstep (g : Grammar) (acc : List Int × List Int) (lhs : Nat) : List Int × List Int :=
  (acc.1.set lhs (acc.2.length : Int),
   ((List.range g.nrules).foldl
     (fun dr r => if geti g.rlhs r = (lhs : Int) then dr ++ [(r : Int)] else dr)
     acc.2) ++ [-1])

theorem set_derives_eq_fold (g : Grammar) :
    set_derives g =
      (List.range' g.start_symbol (g.nsyms - g.start_symbol)).foldl (sdstep g)
        (List.replicate g.nsyms 0, []) := rfl

theorem set_derives_fold (g : Grammar) :
    ∀ (l : List Nat) (ds dr : List Int), l.Nodup →
      (l.foldl (sdstep g) (ds, dr)).2 = dr ++ chunks g l ∧
      (∀ j, j ∉ l →
        ((l.foldl (sdstep g) (ds, dr)).1.getD j 0 = ds.getD j 0)) ∧
      (∀ j ∈ l, j < ds.length →
        ((l.foldl (sdstep g) (ds, dr)).1.getD j 0 =
          (dr.length : Int) +
            ((chunks g (l.takeWhile (fun x => x ≠ j))).length : Int))) := by
  intro l
  induction l with
  | nil =>
    intro ds dr _
    refine ⟨by simp [chunks], fun j _ => rfl, fun j hj => absurd hj (by simp)⟩
  | cons x xs ih =>
    intro ds dr hnd
    have hnd₂ : xs.Nodup := hnd.of_cons
    have hx : x ∉ xs := by
      intro hc
      exact (List.nodup_cons.mp hnd).1 hc
    simp only [List.foldl_cons, sdstep]
    rw [set_derives_inner_range]
    have hstep : (dr ++ lhs_rules g x) ++ [-1] = dr ++ chunk g x := by
      rw [List.append_assoc]
      rfl
    rw [hstep]
    obtain ⟨ih1, ih2, ih3⟩ := ih (ds.set x (dr.length : Int)) (dr ++ chunk g x) hnd₂
    refine ⟨?_, ?_, ?_⟩
    · rw [ih1, List.append_assoc]
      congr 1
    · intro j hj
      have hjx : j ≠ x := by intro hc; exact hj (by simp [hc])
      have hjxs : j ∉ xs := by intro hc; exact hj (by simp [hc])
      rw [ih2 j hjxs, List.getD_eq_getElem?_getD, List.getElem?_set,
        if_neg (by omega), ← List.getD_eq_getElem?_getD]
    · intro j hj hjlen
      rcases List.mem_cons.mp hj with rfl | hmem
      · have htw : (j :: xs).takeWhile (fun y => y ≠ j) = [] := by
          simp [List.takeWhile]
        rw [htw, ih2 j hx, List.getD_eq_getElem?_getD, List.getElem?_set,
          if_pos rfl]
        rw [if_pos hjlen]
        simp [chunks]
      · have hjx : j ≠ x := by
          intro hc
          subst hc
          exact hx hmem
        have htw : (x :: xs).takeWhile (fun y => y ≠ j) =
            x :: xs.takeWhile (fun y => y ≠ j) := by
          rw [List.takeWhile_cons]
          simp [Ne.symm hjx]
        rw [htw, ih3 j hmem (by rwa [List.length_set])]
        simp only [chunks, List.flatMap_cons, List.length_append, List.length_append]
        push_cast
        ring

/-- The two derivation arrays in closed form: derives_rules is the
concatenation of the -1-terminated spans of the nonterminals in order,
and derives points each nonterminal at its own span. -/
theorem set_derives_closed_form (g : Grammar) :
    (set_derives g).2 = chunks g (List.range' g.start_symbol (g.nsyms - g.start_symbol)) ∧
    ∀ L, g.start_symbol ≤ L → L < g.nsyms →
      geti (set_derives g).1 L =
        ((chunks g (List.range' g.start_symbol (L - g.start_symbol))).length : Int) := by
  have hnd : (List.range' g.start_symbol (g.nsyms - g.start_symbol)).Nodup :=
    List.nodup_range' _ _ _ (by omega)
  obtain ⟨h1, -, h3⟩ := set_derives_fold g
    (List.range' g.start_symbol (g.nsyms - g.start_symbol))
    (List.replicate g.nsyms 0) [] hnd
  constructor
  · rw [set_derives_eq_fold, h1, List.nil_append]
  · intro L hL1 hL2
    have hmem : L ∈ List.range' g.start_symbol (g.nsyms - g.start_symbol) := by
      rw [List.mem_range'_1]
      omega
    have htw : (List.range' g.start_symbol (g.nsyms - g.start_symbol)).takeWhile
        (fun x => x ≠ L) = List.range' g.start_symbol (L - g.start_symbol) := by
      have key : ∀ (n s : Nat), s ≤ L → L < s + n →
          (List.range' s n).takeWhile (fun x => x ≠ L) = List.range' s (L - s) := by
        intro n
        induction n with
        | zero => intro s h1 h2; omega
        | succ n ihn =>
          intro s h1 h2
          rw [List.range'_succ s n 1]
          by_cases hs : s = L
          · subst hs
            simp [List.takeWhile]
          · have : (s :: List.range' (s + 1) n).takeWhile (fun x => x ≠ L) =
                s :: (List.range' (s + 1) n).takeWhile (fun x => x ≠ L) := by
              simp [List.takeWhile, hs]
            rw [this, ihn (s + 1) (by omega) (by omega)]
            have hLs : L - s = (L - (s + 1)) + 1 := by omega
            rw [hLs, List.range'_succ s _ 1]
      exact key _ _ hL1 (by omega)
    have h4 := h3 L hmem (by rw [List.length_replicate]; omega)
    rw [htw] at h4
    unfold geti
    rw [set_derives_eq_fold, h4]
    simp

theorem lhs_rules_nonneg (g : Grammar) (L : Nat) : ∀ x ∈ lhs_rules g L, 0 ≤ x := by
  intro x hx
  unfold lhs_rules at hx
  obtain ⟨r, -, rfl⟩ := List.mem_map.mp hx
  omega

theorem count_lhs_rules (g : Grammar) (L : Nat) (r : Nat) :
    (lhs_rules g L).count (r : Int) =
      if r < g.nrules ∧ geti g.rlhs r = (L : Int) then 1 else 0 := by
  unfold lhs_rules
  rw [List.count_map_of_injective _ _ Nat.cast_injective r]
  by_cases hc : r < g.nrules ∧ geti g.rlhs r = (L : Int)
  · rw [if_pos hc]
    refine List.count_eq_one_of_mem ((List.nodup_range _).filter _) ?_
    rw [List.mem_filter, List.mem_range]
    exact ⟨hc.1, by simp [hc.2]⟩
  · rw [if_neg hc]
    refine List.count_eq_zero_of_not_mem ?_
    rw [List.mem_filter, List.mem_range]
    intro hmem
    exact hc ⟨hmem.1, by simpa using hmem.2⟩

theorem count_neg_one_lhs_rules (g : Grammar) (L : Nat) :
    (lhs_rules g L).count (-1) = 0 :=
  List.count_eq_zero_of_not_mem (fun hc => by
    have := lhs_rules_nonneg g L _ hc
    omega)

theorem count_neg_one_chunks (g : Grammar) :
    ∀ l : List Nat, (chunks g l).count (-1) = l.length := by
  intro l
  induction l with
  | nil => rfl
  | cons x xs ih =>
    unfold chunks at ih ⊢
    rw [List.flatMap_cons, List.count_append, ih]
    unfold chunk
    rw [List.count_append, count_neg_one_lhs_rules]
    have h1 : ([(-1 : Int)]).count (-1) = 1 := rfl
    rw [h1, List.length_cons]
    omega

theorem sum_map_eq_one (f : Nat → Nat) :
    ∀ (l : List Nat) (L : Nat), l.Nodup → L ∈ l → f L = 1 →
      (∀ x ∈ l, x ≠ L → f x = 0) → (l.map f).sum = 1 := by
  intro l
  induction l with
  | nil => intro L _ h; simp at h
  | cons x xs ih =>
    intro L hnd hL hfL h0
    simp only [List.map_cons, List.sum_cons]
    rcases List.mem_cons.mp hL with rfl | hmem
    · have hz : ∀ y ∈ xs.map f, y = 0 := by
        intro y hy
        obtain ⟨z, hz, rfl⟩ := List.mem_map.mp hy
        refine h0 z (by simp [hz]) ?_
        intro hc
        subst hc
        exact (List.nodup_cons.mp hnd).1 hz
      rw [hfL, List.sum_eq_zero hz]
      omega
    · rw [h0 x (by simp) (by
        intro hc
        subst hc
        exact (List.nodup_cons.mp hnd).1 hmem)]
      rw [ih L hnd.of_cons hmem hfL (fun y hy hne => h0 y (by simp [hy]) hne)]

theorem count_chunks (g : Grammar) (a : Int) :
    ∀ l : List Nat, (chunks g l).count a = (l.map (fun L => (chunk g L).count a)).sum := by
  intro l
  induction l with
  | nil => rfl
  | cons x xs ih =>
    unfold chunks at ih ⊢
    rw [List.flatMap_cons, List.count_append, ih]
    simp

theorem geti_drop (l : List Int) (n i : Nat) : geti (l.drop n) i = geti l (n + i) := by
  unfold geti
  rw [List.getD_eq_getElem?_getD, List.getD_eq_getElem?_getD, List.getElem?_drop]

theorem takeWhile_append_neg :
    ∀ (l₁ : List Int) (x : Int) (l₂ : List Int), (∀ y ∈ l₁, 0 ≤ y) → x < 0 →
      (l₁ ++ x :: l₂).takeWhile (fun z => 0 ≤ z) = l₁ := by
  intro l₁
  induction l₁ with
  | nil =>
    intro x l₂ _ hx
    rw [List.nil_append, List.takeWhile_cons, if_neg (by simpa using by omega)]
  | cons a as ih =>
    intro x l₂ hall hx
    rw [List.cons_append, List.takeWhile_cons,
      if_pos (by simpa using hall a (by simp)),
      ih x l₂ (fun y hy => hall y (by simp [hy])) hx]

/-- The suffix of derives_rules from the derives pointer of a nonterminal:
its own rule list, the -1 terminator, and the spans of the later
nonterminals. -/
theorem set_derives_span (g : Grammar) (L : Nat)
    (h1 : g.start_symbol ≤ L) (h2 : L < g.nsyms) :
    (set_derives g).2.drop (geti (set_derives g).1 L).toNat =
      lhs_rules g L ++ (-1 :: chunks g (List.range' (L + 1) (g.nsyms - L - 1))) := by
  obtain ⟨hdr, hds⟩ := set_derives_closed_form g
  rw [hdr, hds L h1 h2,
    show ((chunks g (List.range' g.start_symbol (L - g.start_symbol))).length : Int).toNat
      = (chunks g (List.range' g.start_symbol (L - g.start_symbol))).length from by simp]
  have hsplit : List.range' g.start_symbol (g.nsyms - g.start_symbol) =
      List.range' g.start_symbol (L - g.start_symbol) ++
        List.range' L (g.nsyms - L) := by
    have h := List.range'_append g.start_symbol (L - g.start_symbol) (g.nsyms - L) 1
    simp only [one_mul] at h
    rw [show g.start_symbol + (L - g.start_symbol) = L from by omega] at h
    rw [show g.nsyms - L + (L - g.start_symbol) = g.nsyms - g.start_symbol from by omega] at h
    exact h.symm
  rw [hsplit]
  unfold chunks
  rw [List.flatMap_append, List.drop_left]
  have hrange : List.range' L (g.nsyms - L) = L :: List.range' (L + 1) (g.nsyms - L - 1) := by
    obtain ⟨m, hm⟩ : ∃ m, g.nsyms - L = m + 1 := ⟨g.nsyms - L - 1, by omega⟩
    rw [hm, List.range'_succ]
    simp
  rw [hrange, List.flatMap_cons]
  unfold chunk
  rw [List.append_assoc]
  rfl

/-! The C6 theorem itself. -/

/-- C6: for a grammar whose rule left-hand sides are all nonterminals,
set_derives produces derives and derives_rules such that every rule
appears exactly once in derives_rules and lies inside the span of its
left-hand symbol (the run of nonnegative entries starting at the derives
pointer of that symbol), every nonterminal span is terminated by -1
immediately after that run, and there are exactly nsyms - start_symbol
sentinels, one per nonterminal. -/
theorem set_derives_complete (g : Grammar)
    (hlhs : ∀ r, r < g.nrules →
      (g.start_symbol : Int) ≤ geti g.rlhs r ∧ geti g.rlhs r < (g.nsyms : Int)) :
    (∀ r, r < g.nrules →
      (set_derives g).2.count (r : Int) = 1 ∧
      (r : Int) ∈ ((set_derives g).2.drop
          (geti (set_derives g).1 (geti g.rlhs r).toNat).toNat).takeWhile
          (fun x => 0 ≤ x)) ∧
    (∀ L, g.start_symbol ≤ L → L < g.nsyms →
      geti (set_derives g).2 ((geti (set_derives g).1 L).toNat +
        (((set_derives g).2.drop ((geti (set_derives g).1 L).toNat)).takeWhile
          (fun x => 0 ≤ x)).length) = -1) ∧
    (set_derives g).2.count (-1) = g.nsyms - g.start_symbol := by
  have hspan : ∀ L, g.start_symbol ≤ L → L < g.nsyms →
      ((set_derives g).2.drop ((geti (set_derives g).1 L).toNat)).takeWhile
        (fun x => 0 ≤ x) = lhs_rules g L := by
    intro L hL1 hL2
    rw [set_derives_span g L hL1 hL2]
    exact takeWhile_append_neg _ _ _ (lhs_rules_nonneg g L) (by omega)
  refine ⟨?_, ?_, ?_⟩
  · intro r hr
    have hL1 : (g.start_symbol : Int) ≤ geti g.rlhs r := (hlhs r hr).1
    have hL2 : geti g.rlhs r < (g.nsyms : Int) := (hlhs r hr).2
    have hcast : ((geti g.rlhs r).toNat : Int) = geti g.rlhs r := by omega
    constructor
    · rw [(set_derives_closed_form g).1, count_chunks]
      refine sum_map_eq_one _ _ (geti g.rlhs r).toNat
        (List.nodup_range' _ _ _ (by omega))
        (by rw [List.mem_range'_1]; omega) ?_ ?_
      · unfold chunk
        rw [List.count_append, count_lhs_rules,
          if_pos ⟨hr, by rw [hcast]⟩]
        have h2 : ([(-1 : Int)]).count (r : Int) = 0 :=
          List.count_eq_zero_of_not_mem (by
            intro hc
            rw [List.mem_singleton] at hc
            omega)
        rw [h2]
      · intro x hx hne
        unfold chunk
        rw [List.count_append, count_lhs_rules, if_neg (by
          rintro ⟨-, hc⟩
          exact hne (by omega))]
        have h2 : ([(-1 : Int)]).count (r : Int) = 0 :=
          List.count_eq_zero_of_not_mem (by
            intro hc
            rw [List.mem_singleton] at hc
            omega)
        rw [h2]
    · rw [hspan (geti g.rlhs r).toNat (by omega) (by omega)]
      unfold lhs_rules
      rw [List.mem_map]
      refine ⟨r, ?_, rfl⟩
      rw [List.mem_filter, List.mem_range]
      exact ⟨hr, by simp [hcast]⟩
  · intro L hL1 hL2
    rw [hspan L hL1 hL2, ← geti_drop, set_derives_span g L hL1 hL2]
    unfold geti
    rw [List.getD_eq_getElem?_getD, List.getElem?_append_right (Nat.le_refl _)]
    simp
  · rw [(set_derives_closed_form g).1, count_neg_one_chunks, List.length_range']

/-- Witness for C6 at the concrete grammar gC1, whose rule left-hand
sides are all nonterminals. -/
theorem set_derives_complete_witness :
    (∀ r, r < gC1.nrules →
      (gC1.start_symbol : Int) ≤ geti gC1.rlhs r ∧ geti gC1.rlhs r < (gC1.nsyms : Int)) ∧
    ((∀ r, r < gC1.nrules →
      (set_derives gC1).2.count (r : Int) = 1 ∧
      (r : Int) ∈ ((set_derives gC1).2.drop
          (geti (set_derives gC1).1 (geti gC1.rlhs r).toNat).toNat).takeWhile
          (fun x => 0 ≤ x)) ∧
    (∀ L, gC1.start_symbol ≤ L → L < gC1.nsyms →
      geti (set_derives gC1).2 ((geti (set_derives gC1).1 L).toNat +
        (((set_derives gC1).2.drop ((geti (set_derives gC1).1 L).toNat)).takeWhile
          (fun x => 0 ≤ x)).length) = -1) ∧
    (set_derives gC1).2.count (-1) = gC1.nsyms - gC1.start_symbol) :=
  ⟨by decide, set_derives_complete gC1 (by decide)⟩

/-! ## The work-list loop: basic step facts -/

theorem getD_append_left (l₁ l₂ : List Core) (n : Nat) (d : Core)
    (h : n < l₁.length) : (l₁ ++ l₂).getD n d = l₁.getD n d := by
  rw [List.getD_eq_getElem?_getD, List.getD_eq_getElem?_getD, List.getElem?_append_left h]

theorem get_state_extend (lr0 : LR0State) (symbol : Nat) (lr0₂ : LR0State) (idx : Nat)
    (h : get_state lr0 symbol = some (lr0₂, idx)) :
    (lr0₂ = lr0 ∧ bucket_probe lr0 symbol = some idx) ∨
      (lr0₂.state_set = lr0.state_set.set (staged_key lr0 symbol)
          ((lr0.state_set.getD (staged_key lr0 symbol) []) ++ [lr0.states.length]) ∧
       lr0₂.states = lr0.states ++ [⟨symbol, staged_slice lr0 symbol⟩] ∧
       lr0₂.kernel_base = lr0.kernel_base ∧
       lr0₂.kernel_end = lr0.kernel_end ∧
       lr0₂.kernel_items = lr0.kernel_items ∧
       idx = lr0.states.length ∧
       bucket_probe lr0 symbol = none ∧
       lr0.states.length < 32767) := by
  unfold get_state at h
  cases hb : bucket_probe lr0 symbol with
  | some st =>
    rw [hb] at h
    simp only [Option.some.injEq, Prod.mk.injEq] at h
    exact Or.inl ⟨h.1.symm, by rw [h.2]⟩
  | none =>
    rw [hb] at h
    by_cases hl : lr0.states.length < 0x7fff
    · rw [if_pos hl] at h
      simp only [Option.some.injEq, Prod.mk.injEq] at h
      refine Or.inr ⟨?_, ?_, ?_, ?_, ?_, h.2.symm, rfl, hl⟩ <;> rw [← h.1]
    · rw [if_neg hl] at h
      simp at h

theorem get_state_states_mono (lr0 : LR0State) (symbol : Nat) (lr0₂ : LR0State)
    (idx : Nat) (h : get_state lr0 symbol = some (lr0₂, idx)) :
    lr0.states.length ≤ lr0₂.states.length ∧
    (∀ j, j < lr0.states.length →
      lr0₂.states.getD j default = lr0.states.getD j default) := by
  rcases get_state_extend lr0 symbol lr0₂ idx h with ⟨rfl, -⟩ | ⟨-, hs, -⟩
  · exact ⟨Nat.le_refl _, fun j _ => rfl⟩
  · rw [hs]
    refine ⟨by rw [List.length_append]; omega, ?_⟩
    intro j hj
    exact getD_append_left _ _ _ _ hj

theorem append_states_extend : ∀ (ss : List Int) (lr0 lr0₂ : LR0State) (dests : List Int),
    append_states lr0 ss = some (lr0₂, dests) →
    lr0.states.length ≤ lr0₂.states.length ∧
    (∀ j, j < lr0.states.length →
      lr0₂.states.getD j default = lr0.states.getD j default) ∧
    dests.length = ss.length := by
  intro ss
  induction ss with
  | nil =>
    intro lr0 lr0₂ dests h
    unfold append_states at h
    simp only [Option.some.injEq, Prod.mk.injEq] at h
    rw [← h.1, ← h.2]
    exact ⟨Nat.le_refl _, fun j _ => rfl, rfl⟩
  | cons s rest ih =>
    intro lr0 lr0₂ dests h
    unfold append_states at h
    cases h1 : get_state lr0 s.toNat with
    | none => rw [h1] at h; simp at h
    | some p =>
      obtain ⟨lr0₁, st⟩ := p
      rw [h1] at h
      dsimp only at h
      cases h2 : append_states lr0₁ rest with
      | none =>
        rw [h2] at h
        simp at h
      | some q =>
        obtain ⟨lr0₃, dests₂⟩ := q
        rw [h2] at h
        simp only [Option.some.injEq, Prod.mk.injEq] at h
        obtain ⟨h3, h4⟩ := h
        have hgs := get_state_states_mono lr0 s.toNat lr0₁ st h1
        have hih := ih lr0₁ lr0₃ dests₂ h2
        rw [← h3, ← h4]
        refine ⟨Nat.le_trans hgs.1 hih.1, ?_, by simp [hih.2.2]⟩
        intro j hj
        rw [hih.2.1 j (Nat.lt_of_lt_of_le hj hgs.1), hgs.2 j hj]

theorem nis_step_preserves (g : Grammar) (p : LR0State × List Int) (it : Int) :
    (nis_step g p it).1.states = p.1.states ∧
    (nis_step g p it).1.state_set = p.1.state_set ∧
    (nis_step g p it).1.kernel_base = p.1.kernel_base := by
  unfold nis_step
  by_cases hpos : 0 < geti g.ritem it.toNat
  · simp only [if_pos hpos]
    exact ⟨trivial, trivial, trivial⟩
  · simp only [if_neg hpos]
    exact ⟨trivial, trivial, trivial⟩

theorem foldl_nis_preserves (g : Grammar) :
    ∀ (l : List Int) (p : LR0State × List Int),
      (l.foldl (nis_step g) p).1.states = p.1.states ∧
      (l.foldl (nis_step g) p).1.state_set = p.1.state_set ∧
      (l.foldl (nis_step g) p).1.kernel_base = p.1.kernel_base := by
  intro l
  induction l with
  | nil => intro p; exact ⟨rfl, rfl, rfl⟩
  | cons it rest ih =>
    intro p
    rw [List.foldl_cons]
    obtain ⟨h1, h2, h3⟩ := ih (nis_step g p it)
    obtain ⟨s1, s2, s3⟩ := nis_step_preserves g p it
    exact ⟨h1.trans s1, h2.trans s2, h3.trans s3⟩

theorem new_item_sets_preserves (g : Grammar) (lr0 : LR0State) (item_set : List Int) :
    (new_item_sets g lr0 item_set).1.states = lr0.states ∧
    (new_item_sets g lr0 item_set).1.state_set = lr0.state_set ∧
    (new_item_sets g lr0 item_set).1.kernel_base = lr0.kernel_base := by
  unfold new_item_sets
  obtain ⟨h1, h2, h3⟩ := foldl_nis_preserves g item_set
    ({ lr0 with kernel_end := lr0.kernel_end.map (fun _ => (-1 : Int)) }, [])
  exact ⟨h1, h2, h3⟩

/-- The reduction list of an item set, in scan order: the negations of
its negative ritem values. -/
def red_list (g : Grammar) (item_set : List Int) : List Int :=
  item_set.filterMap (fun i =>
    if geti g.ritem i.toNat < 0 then some (-(geti g.ritem i.toNat)) else none)

theorem save_reductions_eq (g : Grammar) (ts : Nat) (item_set : List Int)
    (reds : List Reductions) :
    save_reductions g ts item_set reds =
      if red_list g item_set = [] then reds
      else reds ++ [⟨ts, red_list g item_set⟩] := by
  unfold save_reductions
  have hfold : ∀ (l : List Int) (init : List Int),
      l.foldl (fun rs i =>
        let item := geti g.ritem i.toNat
        if item < 0 then rs ++ [-item] else rs) init = init ++ red_list g l := by
    intro l
    induction l with
    | nil => intro init; simp [red_list]
    | cons i rest ih =>
      intro init
      rw [List.foldl_cons]
      by_cases hneg : geti g.ritem i.toNat < 0
      · simp only [if_pos hneg]
        rw [ih]
        unfold red_list
        rw [List.filterMap_cons]
        simp only [if_pos hneg]
        rw [List.append_assoc]
        rfl
      · simp only [if_neg hneg]
        rw [ih]
        unfold red_list
        rw [List.filterMap_cons]
        simp only [if_neg hneg]
  rw [hfold item_set []]
  rw [List.nil_append]
  by_cases hz : red_list g item_set = []
  · rw [if_pos hz, hz]
    simp
  · rw [if_neg hz]
    rw [if_pos (by simpa using hz)]

theorem processState_extend (g : Grammar) (acc : LoopAcc) (ts : Nat) (acc₂ : LoopAcc)
    (h : processState g acc ts = some acc₂) :
    acc.lr0.states.length ≤ acc₂.lr0.states.length ∧
    (∀ j, j < acc.lr0.states.length →
      acc₂.lr0.states.getD j default = acc.lr0.states.getD j default) ∧
    (acc₂.reductions = acc.reductions ∨
      acc₂.reductions = acc.reductions ++
        [⟨ts, red_list g (closure g ((acc.lr0.states.getD ts default).items))⟩]) ∧
    (acc₂.shifts = acc.shifts ∨ ∃ ds, acc₂.shifts = acc.shifts ++ [⟨ts, ds⟩]) := by
  simp only [processState] at h
  cases ha : append_states
      (new_item_sets g acc.lr0
        (closure g ((acc.lr0.states.getD ts default).items))).1
      (sort_shift_symbols
        (new_item_sets g acc.lr0
          (closure g ((acc.lr0.states.getD ts default).items))).2) with
  | none => rw [ha] at h; simp at h
  | some p =>
    obtain ⟨lr0₃, shift_set⟩ := p
    rw [ha] at h
    simp only [Option.some.injEq] at h
    have hpre := new_item_sets_preserves g acc.lr0
      (closure g ((acc.lr0.states.getD ts default).items))
    have hext := append_states_extend _ _ _ _ ha
    rw [hpre.1] at hext
    rw [← h]
    refine ⟨hext.1, hext.2.1, ?_, ?_⟩
    · rw [save_reductions_eq]
      by_cases hz : red_list g (closure g ((acc.lr0.states.getD ts default).items)) = []
      · rw [if_pos hz]; exact Or.inl rfl
      · rw [if_neg hz]; exact Or.inr rfl
    · by_cases hs : 0 < (sort_shift_symbols
          (new_item_sets g acc.lr0
            (closure g ((acc.lr0.states.getD ts default).items))).2).length
      · rw [if_pos hs]
        exact Or.inr ⟨shift_set, rfl⟩
      · rw [if_neg hs]
        exact Or.inl rfl

/-! ## C9: shifts and reductions grow in lock-step -/

theorem lr0Loop_lockstep (g : Grammar) :
    ∀ (fuel : Nat) (acc : LoopAcc) (ts : Nat) (accF : LoopAcc),
      lr0Loop g fuel acc ts = some accF →
      ts ≤ acc.lr0.states.length →
      List.Pairwise (fun a b => a < b) (acc.shifts.map Shifts.state) →
      (∀ e ∈ acc.shifts, e.state < ts) →
      List.Pairwise (fun a b => a < b) (acc.reductions.map Reductions.state) →
      (∀ e ∈ acc.reductions, e.state < ts) →
      List.Pairwise (fun a b => a < b) (accF.shifts.map Shifts.state) ∧
      (∀ e ∈ accF.shifts, e.state < accF.lr0.states.length) ∧
      List.Pairwise (fun a b => a < b) (accF.reductions.map Reductions.state) ∧
      (∀ e ∈ accF.reductions, e.state < accF.lr0.states.length) := by
  intro fuel
  induction fuel with
  | zero =>
    intro acc ts accF h hts hps hbs hpr hbr
    unfold lr0Loop at h
    by_cases hc : ts < acc.lr0.states.length
    · rw [if_pos hc] at h
      simp at h
    · rw [if_neg hc] at h
      simp only [Option.some.injEq] at h
      subst h
      exact ⟨hps, fun e he => by have := hbs e he; omega,
        hpr, fun e he => by have := hbr e he; omega⟩
  | succ fuel ih =>
    intro acc ts accF h hts hps hbs hpr hbr
    unfold lr0Loop at h
    by_cases hc : ts < acc.lr0.states.length
    · rw [if_pos hc] at h
      cases hp : processState g acc ts with
      | none => rw [hp] at h; simp at h
      | some acc₂ =>
        rw [hp] at h
        dsimp only at h
        obtain ⟨hlen, -, hred, hsh⟩ := processState_extend g acc ts acc₂ hp
        refine ih acc₂ (ts + 1) accF h (by omega) ?_ ?_ ?_ ?_
        · rcases hsh with heq | ⟨ds, heq⟩
          · rw [heq]; exact hps
          · rw [heq, List.map_append]
            rw [List.pairwise_append]
            refine ⟨hps, by simp, ?_⟩
            intro a ha b hb
            simp only [List.map_cons, List.map_nil, List.mem_singleton] at hb
            subst hb
            obtain ⟨e, he, rfl⟩ := List.mem_map.mp ha
            exact hbs e he
        · rcases hsh with heq | ⟨ds, heq⟩
          · rw [heq]
            intro e he
            have := hbs e he
            omega
          · rw [heq]
            intro e he
            rcases List.mem_append.mp he with hm | hm
            · have := hbs e hm; omega
            · rw [List.mem_singleton] at hm
              subst hm
              show ts < ts + 1
              omega
        · rcases hred with heq | heq
          · rw [heq]; exact hpr
          · rw [heq, List.map_append, List.pairwise_append]
            refine ⟨hpr, by simp, ?_⟩
            intro a ha b hb
            simp only [List.map_cons, List.map_nil, List.mem_singleton] at hb
            subst hb
            obtain ⟨e, he, rfl⟩ := List.mem_map.mp ha
            exact hbr e he
        · rcases hred with heq | heq
          · rw [heq]
            intro e he
            have := hbr e he
            omega
          · rw [heq]
            intro e he
            rcases List.mem_append.mp he with hm | hm
            · have := hbr e hm; omega
            · rw [List.mem_singleton] at hm
              subst hm
              show ts < ts + 1
              omega
    · rw [if_neg hc] at h
      simp only [Option.some.injEq] at h
      subst h
      exact ⟨hps, fun e he => by have := hbs e he; omega,
        hpr, fun e he => by have := hbr e he; omega⟩

/-- C9: in the computed output the shift and reduction lists carry at most
one entry per processed state, appended in processing order: their state
fields are strictly increasing, and every entry names a state index below
the final state count. -/
theorem compute_lr0_lockstep (g : Grammar) (out : LR0Output)
    (h : compute_lr0 g = some out) :
    List.Pairwise (fun a b => a < b) (out.shifts.map Shifts.state) ∧
    (∀ e ∈ out.shifts, e.state < out.states.length) ∧
    List.Pairwise (fun a b => a < b) (out.reductions.map Reductions.state) ∧
    (∀ e ∈ out.reductions, e.state < out.states.length) := by
  simp only [compute_lr0] at h
  cases hl : lr0Loop g 0x7fff
      { lr0 := {
          state_set := List.replicate g.nitems [],
          states := initialize_states g (set_derives g).1 (set_derives g).2,
          kernel_base := kernel_base_of g,
          kernel_end := List.replicate g.nsyms (-1),
          kernel_items := List.replicate (kernel_items_count g) 0 },
        reductions := [], shifts := [] } 0 with
  | none => rw [hl] at h; simp at h
  | some accF =>
    rw [hl] at h
    simp only [Option.some.injEq] at h
    have hres := lr0Loop_lockstep g 0x7fff _ 0 accF hl (by omega)
      (by simp) (by simp) (by simp) (by simp)
    rw [← h]
    exact hres

/-- The full output of compute_lr0 on the scenario grammar gC1. -/
def outC1 : LR0Output :=
  { states := [⟨0, [0]⟩, ⟨1, [3]⟩, ⟨3, [1]⟩],
    shifts := [⟨0, [1, 2]⟩],
    reductions := [⟨0, [2]⟩, ⟨1, [1]⟩],
    nullable := [false, false, false, true],
    derives := [0, 0, 0, 2],
    derives_rules := [0, -1, 1, 2, -1] }

/-- Witness for C9 at the concrete grammar gC1. -/
theorem compute_lr0_lockstep_witness :
    compute_lr0 gC1 = some outC1 ∧
    (List.Pairwise (fun a b => a < b) (outC1.shifts.map Shifts.state) ∧
    (∀ e ∈ outC1.shifts, e.state < outC1.states.length) ∧
    List.Pairwise (fun a b => a < b) (outC1.reductions.map Reductions.state) ∧
    (∀ e ∈ outC1.reductions, e.state < outC1.states.length)) :=
  ⟨by decide, compute_lr0_lockstep gC1 outC1 (by decide)⟩

/-! ## C5: reduction extraction -/

theorem lr0Loop_reductions (g : Grammar) :
    ∀ (fuel : Nat) (acc : LoopAcc) (ts : Nat) (accF : LoopAcc),
      lr0Loop g fuel acc ts = some accF →
      ts ≤ acc.lr0.states.length →
      (∀ e ∈ acc.reductions, e.state < ts ∧
        e.rules = red_list g (closure g ((acc.lr0.states.getD e.state default).items))) →
      (∀ e ∈ accF.reductions, e.state < accF.lr0.states.length ∧
        e.rules = red_list g (closure g ((accF.lr0.states.getD e.state default).items))) := by
  intro fuel
  induction fuel with
  | zero =>
    intro acc ts accF h hts hinv
    unfold lr0Loop at h
    by_cases hc : ts < acc.lr0.states.length
    · rw [if_pos hc] at h
      simp at h
    · rw [if_neg hc] at h
      simp only [Option.some.injEq] at h
      subst h
      intro e he
      have := hinv e he
      exact ⟨by omega, this.2⟩
  | succ fuel ih =>
    intro acc ts accF h hts hinv
    unfold lr0Loop at h
    by_cases hc : ts < acc.lr0.states.length
    · rw [if_pos hc] at h
      cases hp : processState g acc ts with
      | none => rw [hp] at h; simp at h
      | some acc₂ =>
        rw [hp] at h
        dsimp only at h
        obtain ⟨hlen, hstable, hred, -⟩ := processState_extend g acc ts acc₂ hp
        refine ih acc₂ (ts + 1) accF h (by omega) ?_
        intro e he
        have hget : ∀ j, j < ts + 1 →
            acc₂.lr0.states.getD j default = acc.lr0.states.getD j default :=
          fun j hj => hstable j (by omega)
        rcases hred with heq | heq
        · rw [heq] at he
          obtain ⟨h1, h2⟩ := hinv e he
          exact ⟨by omega, by rw [hget e.state (by omega), h2]⟩
        · rw [heq] at he
          rcases List.mem_append.mp he with hm | hm
          · obtain ⟨h1, h2⟩ := hinv e hm
            exact ⟨by omega, by rw [hget e.state (by omega), h2]⟩
          · rw [List.mem_singleton] at hm
            subst hm
            refine ⟨by show ts < ts + 1; omega, ?_⟩
            show red_list g (closure g ((acc.lr0.states.getD ts default).items)) = _
            rw [hget ts (by omega)]
    · rw [if_neg hc] at h
      simp only [Option.some.injEq] at h
      subst h
      intro e he
      have := hinv e he
      exact ⟨by omega, this.2⟩

/-- C5: a Reductions entry is appended for a state exactly when its
closure item set holds an item with negative ritem value; the entry rules
are the negations of those values in scan order (red_list); membership in
red_list is exactly witnessing an item with the negated value; and in the
final output every reduction entry belongs to a valid state and consists
exactly of the scan-order negations over that state closure. -/
theorem reductions_correct (g : Grammar) :
    (∀ ts item_set reds, save_reductions g ts item_set reds =
      if red_list g item_set = [] then reds
      else reds ++ [⟨ts, red_list g item_set⟩]) ∧
    (∀ (x : Int) (item_set : List Int), x ∈ red_list g item_set ↔
      ∃ it ∈ item_set, geti g.ritem it.toNat = -x ∧ geti g.ritem it.toNat < 0) ∧
    (∀ out, compute_lr0 g = some out →
      ∀ e ∈ out.reductions, e.state < out.states.length ∧
        e.rules = red_list g (closure g ((out.states.getD e.state default).items))) := by
  refine ⟨save_reductions_eq g, ?_, ?_⟩
  · intro x item_set
    unfold red_list
    rw [List.mem_filterMap]
    constructor
    · rintro ⟨it, hit, hf⟩
      by_cases hneg : geti g.ritem it.toNat < 0
      · rw [if_pos hneg] at hf
        simp only [Option.some.injEq] at hf
        exact ⟨it, hit, by omega, hneg⟩
      · rw [if_neg hneg] at hf
        simp at hf
    · rintro ⟨it, hit, hval, hneg⟩
      refine ⟨it, hit, ?_⟩
      rw [if_pos hneg, hval]
      simp
  · intro out h
    simp only [compute_lr0] at h
    cases hl : lr0Loop g 0x7fff
        { lr0 := {
            state_set := List.replicate g.nitems [],
            states := initialize_states g (set_derives g).1 (set_derives g).2,
            kernel_base := kernel_base_of g,
            kernel_end := List.replicate g.nsyms (-1),
            kernel_items := List.replicate (kernel_items_count g) 0 },
          reductions := [], shifts := [] } 0 with
    | none => rw [hl] at h; simp at h
    | some accF =>
      rw [hl] at h
      simp only [Option.some.injEq] at h
      have hres := lr0Loop_reductions g 0x7fff _ 0 accF hl (by omega) (by simp)
      rw [← h]
      exact hres

/-- Witness for C5 at concrete inputs drawn from the gC1 run. -/
theorem reductions_correct_witness :
    (save_reductions gC1 0 [0, 2, 4] [] =
      if red_list gC1 [0, 2, 4] = [] then []
      else [] ++ [⟨0, red_list gC1 [0, 2, 4]⟩]) ∧
    ((2 : Int) ∈ red_list gC1 [0, 2, 4] ↔
      ∃ it ∈ [(0 : Int), 2, 4], geti gC1.ritem it.toNat = -2 ∧
        geti gC1.ritem it.toNat < 0) ∧
    compute_lr0 gC1 = some outC1 ∧
    (∀ e ∈ outC1.reductions, e.state < outC1.states.length ∧
      e.rules = red_list gC1 (closure gC1 ((outC1.states.getD e.state default).items))) :=
  ⟨(reductions_correct gC1).1 0 [0, 2, 4] [],
   (reductions_correct gC1).2.1 2 [0, 2, 4],
   by decide,
   (reductions_correct gC1).2.2 outC1 (by decide)⟩

/-! ## The kernel-item arena: counting characterization -/

theorem getD_set_any {α : Type} (l : List α) (i j : Nat) (a d : α) :
    (l.set i a).getD j d = if i = j ∧ j < l.length then a else l.getD j d := by
  rw [List.getD_eq_getElem?_getD, List.getD_eq_getElem?_getD, List.getElem?_set]
  by_cases hij : i = j
  · subst hij
    by_cases hl : i < l.length
    · simp [hl]
    · rw [List.getElem?_eq_none (by omega)]
      simp [hl]
  · simp [hij]

theorem geti_set (l : List Int) (i j : Nat) (a : Int) :
    geti (l.set i a) j = if i = j ∧ j < l.length then a else geti l j := by
  unfold geti
  exact getD_set_any l i j a 0

/-- The number of positions below nitems whose ritem value is the given
symbol. -/
def total_cnt (g : Grammar) (s : Int) : Nat :=
  (List.range g.nitems).countP (fun i => decide (geti g.ritem i = s))

/-- The number of positions below nitems whose ritem value is a
nonnegative symbol below s: the prefix sums behind kernel_base. -/
def prefix_cnt (g : Grammar) (s : Nat) : Nat :=
  (List.range g.nitems).countP
    (fun i => decide (0 ≤ geti g.ritem i ∧ (geti g.ritem i).toNat < s))

theorem prefix_cnt_succ (g : Grammar) (k : Nat) :
    prefix_cnt g (k + 1) = prefix_cnt g k + total_cnt g (k : Int) := by
  unfold prefix_cnt total_cnt
  induction (List.range g.nitems) with
  | nil => rfl
  | cons i l ih =>
    rw [List.countP_cons, List.countP_cons, List.countP_cons, ih]
    simp only [decide_eq_true_eq]
    by_cases h0 : 0 ≤ geti g.ritem i
    · by_cases hk : geti g.ritem i = (k : Int)
      · rw [if_pos (by omega), if_neg (by omega), if_pos hk]
        omega
      · by_cases hlt : (geti g.ritem i).toNat < k
        · rw [if_pos (by omega), if_pos (by omega), if_neg hk]
          omega
        · rw [if_neg (by omega), if_neg (by omega), if_neg hk]
          omega
    · rw [if_neg (by omega), if_neg (by omega), if_neg (by omega)]
      omega

theorem prefix_cnt_mono (g : Grammar) (a b : Nat) (h : a ≤ b) :
    prefix_cnt g a ≤ prefix_cnt g b := by
  unfold prefix_cnt
  refine List.countP_mono_left ?_
  intro i _
  rw [decide_eq_true_eq, decide_eq_true_eq]
  omega

theorem symbol_count_spec (g : Grammar) :
    (symbol_count g).length = g.nsyms ∧
    ∀ s, s < g.nsyms → geti (symbol_count g) s = (total_cnt g (s : Int) : Int) := by
  unfold symbol_count
  have key : ∀ (l : List Nat) (sc : List Int), sc.length = g.nsyms →
      ((l.foldl (fun sc i =>
        let symbol := geti g.ritem i
        if 0 ≤ symbol then sc.set symbol.toNat (geti sc symbol.toNat + 1) else sc)
        sc).length = g.nsyms ∧
      ∀ s, s < g.nsyms →
        geti (l.foldl (fun sc i =>
          let symbol := geti g.ritem i
          if 0 ≤ symbol then sc.set symbol.toNat (geti sc symbol.toNat + 1) else sc)
          sc) s = geti sc s +
            (l.countP (fun i => decide (geti g.ritem i = (s : Int))) : Int)) := by
    intro l
    induction l with
    | nil => intro sc hsc; exact ⟨hsc, fun s _ => by simp⟩
    | cons i rest ih =>
      intro sc hsc
      rw [List.foldl_cons]
      by_cases h0 : 0 ≤ geti g.ritem i
      · simp only [if_pos h0]
        obtain ⟨ihl, ihs⟩ :=
          ih (sc.set (geti g.ritem i).toNat (geti sc (geti g.ritem i).toNat + 1))
            (by rw [List.length_set]; exact hsc)
        refine ⟨ihl, ?_⟩
        intro s hs
        rw [ihs s hs, List.countP_cons]
        simp only [decide_eq_true_eq]
        rw [geti_set]
        by_cases heq : geti g.ritem i = (s : Int)
        · have ht : (geti g.ritem i).toNat = s := by omega
          rw [if_pos ⟨ht, by omega⟩, ht, if_pos heq]
          omega
        · have ht : ¬((geti g.ritem i).toNat = s ∧ s < sc.length) := by
            intro hc
            exact heq (by omega)
          rw [if_neg ht, if_neg heq]
          simp
      · simp only [if_neg h0]
        obtain ⟨ihl, ihs⟩ := ih sc hsc
        refine ⟨ihl, ?_⟩
        intro s hs
        rw [ihs s hs, List.countP_cons]
        simp only [decide_eq_true_eq]
        rw [if_neg (by omega)]
        simp
  obtain ⟨h1, h2⟩ := key (List.range g.nitems) (List.replicate g.nsyms 0)
    (List.length_replicate ..)
  refine ⟨h1, ?_⟩
  intro s hs
  rw [h2 s hs]
  have hrep : geti (List.replicate g.nsyms (0 : Int)) s = 0 := by
    unfold geti
    rw [List.getD_eq_getElem?_getD, List.getElem?_replicate, if_pos hs]
    rfl
  rw [hrep, zero_add]
  rfl

theorem kernel_base_of_spec (g : Grammar) :
    (kernel_base_of g).length = g.nsyms ∧
    ∀ s, s < g.nsyms → geti (kernel_base_of g) s = (prefix_cnt g s : Int) := by
  unfold kernel_base_of
  have key : ∀ (n : Nat), n ≤ g.nsyms →
      (((List.range n).foldl
        (fun (acc : List Int × Nat) i =>
          (acc.1.set i (acc.2 : Int), acc.2 + (geti (symbol_count g) i).toNat))
        (List.replicate g.nsyms 0, 0)).1.length = g.nsyms ∧
      ((List.range n).foldl
        (fun (acc : List Int × Nat) i =>
          (acc.1.set i (acc.2 : Int), acc.2 + (geti (symbol_count g) i).toNat))
        (List.replicate g.nsyms 0, 0)).2 = prefix_cnt g n ∧
      ∀ s, s < n →
        geti ((List.range n).foldl
          (fun (acc : List Int × Nat) i =>
            (acc.1.set i (acc.2 : Int), acc.2 + (geti (symbol_count g) i).toNat))
          (List.replicate g.nsyms 0, 0)).1 s = (prefix_cnt g s : Int)) := by
    intro n
    induction n with
    | zero =>
      intro _
      refine ⟨List.length_replicate .., ?_, fun s hs => by omega⟩
      unfold prefix_cnt
      simp
    | succ n ihn =>
      intro hn
      obtain ⟨ihl, ihc, ihs⟩ := ihn (by omega)
      rw [List.range_succ, List.foldl_append, List.foldl_cons, List.foldl_nil]
      refine ⟨by rw [List.length_set]; exact ihl, ?_, ?_⟩
      · show _ + (geti (symbol_count g) n).toNat = prefix_cnt g (n + 1)
        rw [ihc, (symbol_count_spec g).2 n (by omega), prefix_cnt_succ]
        simp
      · intro s hs
        rw [geti_set]
        by_cases heq : n = s
        · subst heq
          rw [if_pos ⟨rfl, by rw [ihl]; omega⟩, ihc]
        · rw [if_neg (by intro hc; exact heq hc.1)]
          exact ihs s (by omega)
  obtain ⟨h1, h2, h3⟩ := key g.nsyms (Nat.le_refl _)
  exact ⟨h1, h3⟩

theorem geti_mem (l : List Int) (n : Nat) (h : n < l.length) : geti l n ∈ l := by
  unfold geti
  rw [List.getD_eq_getElem?_getD, List.getElem?_eq_getElem h]
  exact List.getElem_mem h

theorem geti_default (l : List Int) (n : Nat) (h : l.length ≤ n) : geti l n = 0 :=
  List.getD_eq_default l 0 h

/-! ## Consequences of well-formedness for item positions -/

theorem wf_ritem_split (g : Grammar) (hwf : Wf g) (i : Nat) (h1 : 1 ≤ i)
    (h2 : i < g.ritem.length) :
    ∃ r ∈ packedRules g, geti g.ritem i ∈ ruleBody g r ∨ geti g.ritem i = -(r : Int) := by
  obtain ⟨-, -, -, -, -, -, -, htile, -⟩ := hwf
  have hi : geti g.ritem i = geti (g.ritem.drop 1) (i - 1) := by
    unfold geti
    rw [List.getD_eq_getElem?_getD, List.getD_eq_getElem?_getD, List.getElem?_drop]
    congr 2
    omega
  have hlt : i - 1 < (g.ritem.drop 1).length := by
    rw [List.length_drop]
    omega
  set x := geti (g.ritem.drop 1) (i - 1) with hx
  have hmem : x ∈ g.ritem.drop 1 := hx ▸ geti_mem _ _ hlt
  rw [htile] at hmem
  obtain ⟨r, hr, hin⟩ := List.mem_flatMap.mp hmem
  rcases List.mem_append.mp hin with hb | hs
  · exact ⟨r, hr, Or.inl (by rw [hi]; exact hb)⟩
  · rw [List.mem_singleton] at hs
    exact ⟨r, hr, Or.inr (by rw [hi]; exact hs)⟩

theorem wf_value_lt (g : Grammar) (hwf : Wf g) (i : Nat)
    (hpos : 0 ≤ geti g.ritem i) : (geti g.ritem i).toNat < g.nsyms := by
  have hsyms : 0 < g.nsyms := by
    obtain ⟨-, -, -, -, h, -⟩ := hwf
    omega
  by_cases hbound : i < g.ritem.length
  · rcases Nat.eq_zero_or_pos i with rfl | hi1
    · obtain ⟨-, -, -, -, -, h0, -⟩ := hwf
      omega
    · obtain ⟨r, hr, hor⟩ := wf_ritem_split g hwf i hi1 hbound
      rcases hor with hb | hs
      · have := hwf.2.2.2.2.2.2.2.2.2.1 r hr (geti g.ritem i) hb
        omega
      · have h1r := (List.mem_range'_1.mp hr).1
        omega
  · rw [geti_default g.ritem i (by omega)]
    omega

theorem flatMap_getLast_neg (g : Grammar) :
    ∀ (rs : List Nat), rs ≠ [] → (∀ r ∈ rs, 1 ≤ r) →
      ∃ v : Int, v < 0 ∧
        (rs.flatMap (fun r => ruleBody g r ++ [-(r : Int)])).getLast? = some v := by
  intro rs
  induction rs with
  | nil => intro h _; exact absurd rfl h
  | cons r rest ih =>
    intro _ hge
    rw [List.flatMap_cons]
    by_cases hre : rest = []
    · subst hre
      rw [List.flatMap_nil, List.append_nil]
      refine ⟨-(r : Int), ?_, List.getLast?_concat _⟩
      have := hge r (by simp)
      omega
    · obtain ⟨v, hv, hl⟩ := ih hre (fun x hx => hge x (by simp [hx]))
      refine ⟨v, hv, ?_⟩
      rw [List.getLast?_append, hl]
      rfl

theorem wf_pos_succ_lt (g : Grammar) (hwf : Wf g) (p : Nat)
    (hpos : 0 < geti g.ritem p) : p + 1 < g.nitems := by
  obtain ⟨hlen, -, -, -, -, hr0, -, htile, -⟩ := hwf
  have hbound : p < g.ritem.length := by
    by_contra hc
    rw [geti_default g.ritem p (by omega)] at hpos
    omega
  have hp1 : 1 ≤ p := by
    by_contra hcp
    have hp0 : p = 0 := by omega
    subst hp0
    omega
  by_contra hc
  have hplast : p = g.ritem.length - 1 := by omega
  have hne : packedRules g ≠ [] := by
    intro hc2
    rw [hc2, List.flatMap_nil] at htile
    have : g.ritem.length ≤ 1 := by
      have := congrArg List.length htile
      rw [List.length_drop] at this
      simp at this
      omega
    omega
  obtain ⟨v, hv, hl⟩ := flatMap_getLast_neg g (packedRules g) hne (packedRules_one_le g)
  rw [← htile] at hl
  rw [List.getLast?_eq_getElem?] at hl
  have hdl : (g.ritem.drop 1).length = g.ritem.length - 1 := List.length_drop ..
  have hgp : geti (g.ritem.drop 1) ((g.ritem.drop 1).length - 1) = v := by
    unfold geti
    rw [List.getD_eq_getElem?_getD, hl]
    rfl
  have hgv : geti g.ritem p = v := by
    unfold geti at hgp ⊢
    rw [List.getD_eq_getElem?_getD] at hgp ⊢
    rw [List.getElem?_drop] at hgp
    rw [show p = 1 + ((g.ritem.drop 1).length - 1) from by omega]
    exact hgp
  omega

/-! ## Counting bound for deduplicated item sets -/

theorem cntSym_le_total (g : Grammar) (l : List Int) (hnd : l.Nodup) (s : Int)
    (hpos : 0 < s) (hr0 : geti g.ritem 0 < 0) (hlen : g.ritem.length ≤ g.nitems) :
    l.countP (fun it => decide (geti g.ritem it.toNat = s)) ≤ total_cnt g s := by
  rw [List.countP_eq_length_filter]
  set l₂ := l.filter (fun it => decide (geti g.ritem it.toNat = s)) with hl₂
  have hprop : ∀ x ∈ l₂, geti g.ritem x.toNat = s := by
    intro x hx
    have := List.of_mem_filter hx
    rwa [decide_eq_true_eq] at this
  have hpos₂ : ∀ x ∈ l₂, 0 < x := by
    intro x hx
    by_contra hc
    have hx0 : x.toNat = 0 := by omega
    have := hprop x hx
    rw [hx0] at this
    omega
  have hmap : (l₂.map Int.toNat).Nodup := by
    refine List.Nodup.map_on ?_ (hnd.filter _)
    intro x hx y hy hxy
    have := hpos₂ x hx
    have := hpos₂ y hy
    omega
  have hsub : (l₂.map Int.toNat) ⊆
      (List.range g.nitems).filter (fun i => decide (geti g.ritem i = s)) := by
    intro i hi
    obtain ⟨x, hx, rfl⟩ := List.mem_map.mp hi
    rw [List.mem_filter, List.mem_range]
    have hvx := hprop x hx
    have hxb : x.toNat < g.ritem.length := by
      by_contra hc
      rw [geti_default _ _ (by omega)] at hvx
      omega
    exact ⟨by omega, by rw [decide_eq_true_eq]; exact hvx⟩
  have hle := (List.Nodup.subperm hmap hsub).length_le
  rw [List.length_map] at hle
  unfold total_cnt
  rw [List.countP_eq_length_filter]
  exact hle

/-! ## Slice update helpers -/

theorem take_drop_set_outside (l : List Int) (w : Nat) (v : Int) (a n : Nat)
    (h : w < a ∨ a + n ≤ w) :
    ((l.set w v).drop a).take n = (l.drop a).take n := by
  apply List.ext_getElem?
  intro i
  rw [List.getElem?_take, List.getElem?_take]
  by_cases hi : i < n
  · rw [if_pos hi, if_pos hi, List.getElem?_drop, List.getElem?_drop,
      List.getElem?_set, if_neg (by omega)]
  · rw [if_neg hi, if_neg hi]

theorem take_drop_set_snoc (l : List Int) (a c : Nat) (v : Int)
    (hlen : a + c < l.length) :
    ((l.set (a + c) v).drop a).take (c + 1) = ((l.drop a).take c) ++ [v] := by
  apply List.ext_getElem?
  intro i
  by_cases hi : i < c
  · rw [List.getElem?_take, if_pos (by omega), List.getElem?_drop,
      List.getElem?_set, if_neg (by omega),
      List.getElem?_append_left (by
        rw [List.length_take, List.length_drop]
        omega),
      List.getElem?_take, if_pos hi, List.getElem?_drop]
  · by_cases hie : i = c
    · subst hie
      rw [List.getElem?_take, if_pos (by omega), List.getElem?_drop,
        List.getElem?_set, if_pos rfl, if_pos hlen,
        List.getElem?_append_right (by
          rw [List.length_take, List.length_drop]
          omega)]
      rw [List.length_take, List.length_drop]
      rw [show i - min i (l.length - a) = 0 from by omega]
      rfl
    · rw [List.getElem?_take, if_neg (by omega)]
      rw [List.getElem?_eq_none]
      rw [List.length_append, List.length_take, List.length_drop]
      simp only [List.length_cons, List.length_nil]
      omega

theorem length_take_drop (l : List Int) (a c : Nat) (h : a + c ≤ l.length) :
    ((l.drop a).take c).length = c := by
  rw [List.length_take, List.length_drop]
  omega

/-! ## The arena invariant of new_item_sets -/

/-- The number of items of a scanned list whose ritem value is s. -/
def cntSym (g : Grammar) (l : List Int) (s : Int) : Nat :=
  l.countP (fun it => decide (geti g.ritem it.toNat = s))

/-- The advanced items, in scan order, of the items with ritem value s. -/
def advItems (g : Grammar) (l : List Int) (s : Int) : List Int :=
  (l.filter (fun it => decide (geti g.ritem it.toNat = s))).map (fun it => it + 1)

/-- The invariant tying the arena state after scanning a list of items to
the per-symbol counts and advanced item runs of that list. -/
def ArenaInv (g : Grammar) (done : List Int) (q : LR0State × List Int) : Prop :=
  q.1.kernel_base = kernel_base_of g ∧
  q.1.kernel_items.length = kernel_items_count g ∧
  q.1.kernel_end.length = g.nsyms ∧
  q.2.Nodup ∧
  (∀ s : Int, s ∈ q.2 ↔ 0 < s ∧ 0 < cntSym g done s) ∧
  (∀ s : Int, 0 < s → s.toNat < g.nsyms →
    geti q.1.kernel_end s.toNat =
      (if cntSym g done s = 0 then -1
       else (prefix_cnt g s.toNat : Int) + (cntSym g done s : Int)) ∧
    (q.1.kernel_items.drop (prefix_cnt g s.toNat)).take (cntSym g done s) =
      advItems g done s)

theorem cntSym_snoc (g : Grammar) (done : List Int) (it : Int) (s : Int) :
    cntSym g (done ++ [it]) s =
      cntSym g done s + (if geti g.ritem it.toNat = s then 1 else 0) := by
  unfold cntSym
  rw [List.countP_append, List.countP_cons, List.countP_nil]
  simp only [decide_eq_true_eq]
  omega

theorem advItems_snoc (g : Grammar) (done : List Int) (it : Int) (s : Int) :
    advItems g (done ++ [it]) s =
      advItems g done s ++
        (if geti g.ritem it.toNat = s then [it + 1] else []) := by
  unfold advItems
  rw [List.filter_append, List.map_append]
  congr 1
  by_cases hp : geti g.ritem it.toNat = s
  · rw [if_pos hp]
    rw [List.filter_cons, if_pos (by rw [decide_eq_true_eq]; exact hp)]
    rfl
  · rw [if_neg hp]
    rw [List.filter_cons, if_neg (by rw [decide_eq_true_eq]; exact hp)]
    rfl

theorem prefix_le_total_items (g : Grammar) (k : Nat) :
    prefix_cnt g k ≤ kernel_items_count g := by
  unfold prefix_cnt kernel_items_count
  refine List.countP_mono_left ?_
  intro i _
  rw [decide_eq_true_eq, decide_eq_true_eq]
  omega

theorem nis_step_arena (g : Grammar) (hr0 : geti g.ritem 0 < 0)
    (hlen : g.ritem.length ≤ g.nitems)
    (done : List Int) (it : Int) (q : LR0State × List Int)
    (hinv : ArenaInv g done q)
    (hnd : (done ++ [it]).Nodup)
    (hval : 0 < geti g.ritem it.toNat → (geti g.ritem it.toNat).toNat < g.nsyms) :
    ArenaInv g (done ++ [it]) (nis_step g q it) := by
  obtain ⟨hb, hi, he, hsnd, hmem, hcells⟩ := hinv
  by_cases hpos : 0 < geti g.ritem it.toNat
  case neg =>
    have hstep : nis_step g q it = q := by
      unfold nis_step
      rw [if_neg hpos]
    rw [hstep]
    refine ⟨hb, hi, he, hsnd, ?_, ?_⟩
    · intro s
      rw [hmem s, cntSym_snoc]
      constructor
      · rintro ⟨h1, h2⟩
        exact ⟨h1, by omega⟩
      · rintro ⟨h1, h2⟩
        refine ⟨h1, ?_⟩
        have hne : ¬(geti g.ritem it.toNat = s) := by omega
        rw [if_neg hne] at h2
        omega
    · intro s hs hsn
      obtain ⟨h1, h2⟩ := hcells s hs hsn
      have hne : ¬(geti g.ritem it.toNat = s) := by omega
      rw [cntSym_snoc, if_neg hne, Nat.add_zero, advItems_snoc, if_neg hne,
        List.append_nil]
      exact ⟨h1, h2⟩
  case pos =>
    have hvn : (geti g.ritem it.toNat).toNat < g.nsyms := hval hpos
    obtain ⟨hend_v, hslice_v⟩ := hcells (geti g.ritem it.toNat) hpos hvn
    have hbase_v : geti q.1.kernel_base (geti g.ritem it.toNat).toNat =
        ((prefix_cnt g (geti g.ritem it.toNat).toNat : Nat) : Int) := by
      rw [hb]
      exact (kernel_base_of_spec g).2 _ hvn
    have hcast : ((prefix_cnt g (geti g.ritem it.toNat).toNat +
        cntSym g done (geti g.ritem it.toNat) : Nat) : Int) =
        (prefix_cnt g (geti g.ritem it.toNat).toNat : Int) +
          (cntSym g done (geti g.ritem it.toNat) : Int) := by
      push_cast
      ring
    have hstep : nis_step g q it =
        ({ q.1 with
            kernel_items := q.1.kernel_items.set
              (prefix_cnt g (geti g.ritem it.toNat).toNat +
                cntSym g done (geti g.ritem it.toNat)) (it + 1),
            kernel_end := q.1.kernel_end.set (geti g.ritem it.toNat).toNat
              (((prefix_cnt g (geti g.ritem it.toNat).toNat +
                cntSym g done (geti g.ritem it.toNat) : Nat) : Int) + 1) },
         if cntSym g done (geti g.ritem it.toNat) = 0
         then q.2 ++ [geti g.ritem it.toNat] else q.2) := by
      unfold nis_step
      rw [if_pos hpos]
      dsimp only
      by_cases h0 : cntSym g done (geti g.ritem it.toNat) = 0
      · rw [hend_v, if_pos h0, if_pos rfl, if_pos rfl, if_pos h0, hbase_v, h0]
        rw [show ((prefix_cnt g (geti g.ritem it.toNat).toNat : Nat) : Int).toNat =
            prefix_cnt g (geti g.ritem it.toNat).toNat + 0 from by omega]
        rfl
      · have hne1 : ¬(geti q.1.kernel_end (geti g.ritem it.toNat).toNat = -1) := by
          rw [hend_v, if_neg h0]
          have : (0 : Int) ≤ (prefix_cnt g (geti g.ritem it.toNat).toNat : Int) +
              (cntSym g done (geti g.ritem it.toNat) : Int) := by positivity
          omega
        rw [if_neg hne1, if_neg hne1, if_neg h0, hend_v, if_neg h0, ← hcast]
        rw [show ((prefix_cnt g (geti g.ritem it.toNat).toNat +
            cntSym g done (geti g.ritem it.toNat) : Nat) : Int).toNat =
            prefix_cnt g (geti g.ritem it.toNat).toNat +
              cntSym g done (geti g.ritem it.toNat) from by omega]
    have hcntb : cntSym g (done ++ [it]) (geti g.ritem it.toNat) ≤
        total_cnt g (geti g.ritem it.toNat) :=
      cntSym_le_total g (done ++ [it]) hnd _ hpos hr0 hlen
    have hcnt_snoc_v : cntSym g (done ++ [it]) (geti g.ritem it.toNat) =
        cntSym g done (geti g.ritem it.toNat) + 1 := by
      rw [cntSym_snoc, if_pos rfl]
    have hvala : ((geti g.ritem it.toNat).toNat : Int) = geti g.ritem it.toNat := by
      omega
    have hsucc : prefix_cnt g ((geti g.ritem it.toNat).toNat + 1) =
        prefix_cnt g (geti g.ritem it.toNat).toNat +
          total_cnt g (geti g.ritem it.toNat) := by
      rw [prefix_cnt_succ, hvala]
    have hwlt : prefix_cnt g (geti g.ritem it.toNat).toNat +
        cntSym g done (geti g.ritem it.toNat) < kernel_items_count g := by
      have h1 : prefix_cnt g ((geti g.ritem it.toNat).toNat + 1) ≤
          kernel_items_count g := prefix_le_total_items g _
      omega
    rw [hstep]
    refine ⟨hb, by rw [List.length_set]; exact hi, by rw [List.length_set]; exact he,
      ?_, ?_, ?_⟩
    · by_cases h0 : cntSym g done (geti g.ritem it.toNat) = 0
      · rw [if_pos h0]
        have hnin : geti g.ritem it.toNat ∉ q.2 := by
          intro hc
          have := (hmem _).mp hc
          omega
        simp [List.nodup_append, hsnd, hnin]
      · rw [if_neg h0]
        exact hsnd
    · intro s
      by_cases hsv : s = geti g.ritem it.toNat
      · subst hsv
        constructor
        · intro _
          exact ⟨hpos, by omega⟩
        · intro _
          by_cases h0 : cntSym g done (geti g.ritem it.toNat) = 0
          · rw [if_pos h0]
            exact List.mem_append.mpr (Or.inr (by simp))
          · rw [if_neg h0]
            exact (hmem (geti g.ritem it.toNat)).mpr ⟨hpos, by omega⟩
      · have hcs : cntSym g (done ++ [it]) s = cntSym g done s := by
          rw [cntSym_snoc, if_neg (fun hc => hsv hc.symm), Nat.add_zero]
        rw [hcs]
        by_cases h0 : cntSym g done (geti g.ritem it.toNat) = 0
        · rw [if_pos h0]
          constructor
          · intro hin
            rcases List.mem_append.mp hin with hin2 | hin2
            · exact (hmem s).mp hin2
            · rw [List.mem_singleton] at hin2
              exact absurd hin2 hsv
          · intro hp
            exact List.mem_append.mpr (Or.inl ((hmem s).mpr hp))
        · rw [if_neg h0]
          exact hmem s
    · intro s hs hsn
      by_cases hsv : s = geti g.ritem it.toNat
      · subst hsv
        rw [hcnt_snoc_v]
        constructor
        · rw [geti_set, if_pos ⟨rfl, by rw [he]; exact hsn⟩,
            if_neg (by omega)]
          push_cast
          ring
        · rw [advItems_snoc, if_pos rfl]
          rw [take_drop_set_snoc q.1.kernel_items _ _ _ (by omega), hslice_v]
      · have hcs : cntSym g (done ++ [it]) s = cntSym g done s := by
          rw [cntSym_snoc, if_neg (fun hc => hsv hc.symm), Nat.add_zero]
        have has : advItems g (done ++ [it]) s = advItems g done s := by
          rw [advItems_snoc, if_neg (fun hc => hsv hc.symm), List.append_nil]
        obtain ⟨h1, h2⟩ := hcells s hs hsn
        rw [hcs, has]
        constructor
        · rw [geti_set, if_neg (by
            rintro ⟨hc, -⟩
            apply hsv
            omega)]
          exact h1
        · have hcnts : cntSym g done s ≤ total_cnt g s := by
            have hdone : done.Nodup := ((List.nodup_append.mp hnd).1)
            exact cntSym_le_total g done hdone s hs hr0 hlen
          have hsuccs : prefix_cnt g (s.toNat + 1) =
              prefix_cnt g s.toNat + total_cnt g s := by
            rw [prefix_cnt_succ, show ((s.toNat : Nat) : Int) = s from by omega]
          rw [take_drop_set_outside _ _ _ _ _ ?_]
          · exact h2
          · by_cases hlt : s.toNat < (geti g.ritem it.toNat).toNat
            · refine Or.inr ?_
              have hm := prefix_cnt_mono g (s.toNat + 1) (geti g.ritem it.toNat).toNat
                (by omega)
              omega
            · refine Or.inl ?_
              have hvs : (geti g.ritem it.toNat).toNat < s.toNat := by
                have : (geti g.ritem it.toNat).toNat ≠ s.toNat := by omega
                omega
              have hm := prefix_cnt_mono g ((geti g.ritem it.toNat).toNat + 1) s.toNat
                (by omega)
              omega

theorem nis_fold_arena (g : Grammar) (hr0 : geti g.ritem 0 < 0)
    (hlen : g.ritem.length ≤ g.nitems) :
    ∀ (rest done : List Int) (q : LR0State × List Int),
      ArenaInv g done q → (done ++ rest).Nodup →
      (∀ it ∈ rest, 0 < geti g.ritem it.toNat →
        (geti g.ritem it.toNat).toNat < g.nsyms) →
      ArenaInv g (done ++ rest) (rest.foldl (nis_step g) q) := by
  intro rest
  induction rest with
  | nil =>
    intro done q hinv _ _
    simpa using hinv
  | cons it rest ih =>
    intro done q hinv hnd hvals
    rw [List.foldl_cons]
    have hnd1 : (done ++ [it]).Nodup := by
      have hsub : (done ++ [it]).Sublist (done ++ it :: rest) :=
        List.Sublist.append_left
          (List.cons_sublist_cons.mpr (List.nil_sublist rest)) done
      exact hnd.sublist hsub
    have hstep := nis_step_arena g hr0 hlen done it q hinv hnd1 (hvals it (by simp))
    have hres := ih (done ++ [it]) (nis_step g q it) hstep
      (by simpa [List.append_assoc] using hnd)
      (fun x hx h => hvals x (by simp [hx]) h)
    simpa [List.append_assoc] using hres

theorem new_item_sets_arena (g : Grammar) (hr0 : geti g.ritem 0 < 0)
    (hlen : g.ritem.length ≤ g.nitems) (lr0 : LR0State)
    (hbase : lr0.kernel_base = kernel_base_of g)
    (hilen : lr0.kernel_items.length = kernel_items_count g)
    (helen : lr0.kernel_end.length = g.nsyms)
    (item_set : List Int) (hnd : item_set.Nodup)
    (hvals : ∀ it ∈ item_set, 0 < geti g.ritem it.toNat →
      (geti g.ritem it.toNat).toNat < g.nsyms) :
    ArenaInv g item_set (new_item_sets g lr0 item_set) := by
  have h0 : ArenaInv g []
      ({ lr0 with kernel_end := lr0.kernel_end.map (fun _ => (-1 : Int)) }, []) := by
    refine ⟨hbase, hilen, by rw [List.length_map]; exact helen, List.nodup_nil,
      ?_, ?_⟩
    · intro s
      simp [cntSym]
    · intro s hs hsn
      have hcz : cntSym g [] s = 0 := rfl
      constructor
      · show geti (lr0.kernel_end.map (fun _ => (-1 : Int))) s.toNat = _
        rw [hcz, if_pos rfl]
        have hidx : s.toNat < lr0.kernel_end.length := by
          rw [helen]
          exact hsn
        unfold geti
        rw [List.getD_eq_getElem?_getD, List.getElem?_map,
          List.getElem?_eq_getElem hidx]
        rfl
      · rw [hcz]
        rfl
  have hres := nis_fold_arena g hr0 hlen item_set [] _ h0 (by simpa using hnd) hvals
  unfold new_item_sets
  simpa using hres

/-! ## C4: shift-symbol extraction and successor resolution -/

theorem closure_nodup (g : Grammar) (kernel : List Int) : (closure g kernel).Nodup := by
  unfold closure
  rw [(List.perm_insertionSort _ _).nodup_iff]
  exact List.nodup_dedup _

/-- The closure item set the loop computes for a state. -/
def state_item_set (g : Grammar) (acc : LoopAcc) (ts : Nat) : List Int :=
  closure g ((acc.lr0.states.getD ts default).items)

/-- The arena state and raw shift-symbol list staged for a state. -/
def staged_of (g : Grammar) (acc : LoopAcc) (ts : Nat) : LR0State × List Int :=
  new_item_sets g acc.lr0 (state_item_set g acc ts)

/-- The sorted shift-symbol list of a state. -/
def shift_syms_of (g : Grammar) (acc : LoopAcc) (ts : Nat) : List Int :=
  sort_shift_symbols (staged_of g acc ts).2

theorem wf_vals_all (g : Grammar) (hwf : Wf g) :
    ∀ it : Int, 0 < geti g.ritem it.toNat → (geti g.ritem it.toNat).toNat < g.nsyms :=
  fun it h => wf_value_lt g hwf it.toNat (by omega)

/-- C4: the shift symbols collected for a processed state are exactly the
distinct positive ritem values of its closure items (symbol 0 and the
negative sentinels excluded), sorted ascending before successor
resolution; the destinations are produced by the per-symbol dedup/create
calls of append_states over that sorted list, one destination per symbol,
and a Shifts entry is appended exactly when the symbol list is
non-empty. -/
theorem shifts_extraction (g : Grammar) (hwf : Wf g) (acc : LoopAcc) (ts : Nat)
    (hbase : acc.lr0.kernel_base = kernel_base_of g)
    (hilen : acc.lr0.kernel_items.length = kernel_items_count g)
    (helen : acc.lr0.kernel_end.length = g.nsyms) :
    (∀ s : Int, s ∈ shift_syms_of g acc ts ↔
      (0 < s ∧ ∃ it ∈ state_item_set g acc ts, geti g.ritem it.toNat = s)) ∧
    List.Sorted (fun a b => a ≤ b) (shift_syms_of g acc ts) ∧
    (shift_syms_of g acc ts).Nodup ∧
    (∀ acc₂, processState g acc ts = some acc₂ →
      ∃ lr0₃ dests,
        append_states (staged_of g acc ts).1 (shift_syms_of g acc ts) =
          some (lr0₃, dests) ∧
        dests.length = (shift_syms_of g acc ts).length ∧
        acc₂.shifts = (if 0 < (shift_syms_of g acc ts).length
                       then acc.shifts ++ [⟨ts, dests⟩] else acc.shifts)) := by
  have hr0 : geti g.ritem 0 < 0 := hwf.2.2.2.2.2.1
  have hlen : g.ritem.length ≤ g.nitems := le_of_eq hwf.1
  have harena := new_item_sets_arena g hr0 hlen acc.lr0 hbase hilen helen
    (state_item_set g acc ts) (closure_nodup g _)
    (fun it _ h => wf_vals_all g hwf it h)
  obtain ⟨-, -, -, hnd, hmem, -⟩ := harena
  rw [show new_item_sets g acc.lr0 (state_item_set g acc ts) = staged_of g acc ts
    from rfl] at hnd hmem
  have hperm : List.Perm (shift_syms_of g acc ts) (staged_of g acc ts).2 :=
    List.perm_insertionSort _ _
  refine ⟨?_, ?_, ?_, ?_⟩
  · intro s
    rw [hperm.mem_iff, hmem s]
    constructor
    · rintro ⟨h1, h2⟩
      obtain ⟨it, hit, hp⟩ := List.countP_pos_iff.mp h2
      rw [decide_eq_true_eq] at hp
      exact ⟨h1, it, hit, hp⟩
    · rintro ⟨h1, it, hit, hp⟩
      refine ⟨h1, List.countP_pos_iff.mpr ⟨it, hit, ?_⟩⟩
      rw [decide_eq_true_eq]
      exact hp
  · exact List.sorted_insertionSort _ _
  · exact hperm.nodup_iff.mpr hnd
  · intro acc₂ h
    simp only [processState] at h
    cases ha : append_states (staged_of g acc ts).1 (shift_syms_of g acc ts) with
    | none =>
      rw [show (new_item_sets g acc.lr0
          (closure g ((acc.lr0.states.getD ts default).items))) =
          staged_of g acc ts from rfl] at h
      rw [show sort_shift_symbols (staged_of g acc ts).2 = shift_syms_of g acc ts
        from rfl] at h
      rw [ha] at h
      simp at h
    | some p =>
      obtain ⟨lr0₃, dests⟩ := p
      rw [show (new_item_sets g acc.lr0
          (closure g ((acc.lr0.states.getD ts default).items))) =
          staged_of g acc ts from rfl] at h
      rw [show sort_shift_symbols (staged_of g acc ts).2 = shift_syms_of g acc ts
        from rfl] at h
      rw [ha] at h
      simp only [Option.some.injEq] at h
      refine ⟨lr0₃, dests, rfl, (append_states_extend _ _ _ _ ha).2.2, ?_⟩
      rw [← h]

/-- A concrete loop accumulator: the initial builder state of gW. -/
def accW : LoopAcc :=
  { lr0 := {
      state_set := [[], [], [], [], [], []],
      states := [⟨0, [1]⟩],
      kernel_base := [0, 0, 1, 1],
      kernel_end := [-1, -1, -1, -1],
      kernel_items := [0, 0] },
    reductions := [], shifts := [] }

/-- Witness for C4 at the concrete well-formed grammar gW, state 0. -/
theorem shifts_extraction_witness :
    Wf gW ∧
    ((∀ s : Int, s ∈ shift_syms_of gW accW 0 ↔
      (0 < s ∧ ∃ it ∈ state_item_set gW accW 0, geti gW.ritem it.toNat = s)) ∧
    List.Sorted (fun a b => a ≤ b) (shift_syms_of gW accW 0) ∧
    (shift_syms_of gW accW 0).Nodup ∧
    (∀ acc₂, processState gW accW 0 = some acc₂ →
      ∃ lr0₃ dests,
        append_states (staged_of gW accW 0).1 (shift_syms_of gW accW 0) =
          some (lr0₃, dests) ∧
        dests.length = (shift_syms_of gW accW 0).length ∧
        acc₂.shifts = (if 0 < (shift_syms_of gW accW 0).length
                       then accW.shifts ++ [⟨0, dests⟩] else accW.shifts))) :=
  ⟨by decide, shifts_extraction gW (by decide) accW 0 (by decide) (by decide) (by decide)⟩

/-! ## The state-table invariant -/

/-- The structural invariant of the builder state: the arena is well
allocated; state 0 kernel items all start a packed rule body (the entry
before each is a sentinel); every later state is nonempty, its head item
is an advanced position (the entry before it is a positive symbol) and it
is registered in the bucket of its head item; every bucket entry is a
valid nonzero state whose items begin with the bucket key; and no two
states share their item list. -/
def coreInv (g : Grammar) (lr0 : LR0State) : Prop :=
  lr0.kernel_base = kernel_base_of g ∧
  lr0.kernel_items.length = kernel_items_count g ∧
  lr0.kernel_end.length = g.nsyms ∧
  lr0.state_set.length = g.nitems ∧
  0 < lr0.states.length ∧
  (∀ p ∈ (lr0.states.getD 0 default).items,
    1 ≤ p ∧ geti g.ritem (p.toNat - 1) < 0) ∧
  (∀ i, 0 < i → i < lr0.states.length →
    ∃ h rest, (lr0.states.getD i default).items = h :: rest ∧
      1 ≤ h ∧ 0 < geti g.ritem (h.toNat - 1) ∧ h.toNat < g.nitems ∧
      i ∈ lr0.state_set.getD h.toNat []) ∧
  (∀ k : Nat, ∀ st ∈ lr0.state_set.getD k [], 0 < st ∧ st < lr0.states.length ∧
    ∃ rest, (lr0.states.getD st default).items = ((k : Nat) : Int) :: rest) ∧
  List.Pairwise (fun a b => a.items ≠ b.items) lr0.states

theorem geti_eq_getElem (l : List Int) (i : Nat) (h : i < l.length) :
    geti l i = l[i] := by
  unfold geti
  rw [List.getD_eq_getElem?_getD, List.getElem?_eq_getElem h]
  rfl

theorem staged_slice_head (lr0 : LR0State) (symbol : Nat)
    (hne : staged_slice lr0 symbol ≠ []) :
    ∃ rest, staged_slice lr0 symbol =
      geti lr0.kernel_items (geti lr0.kernel_base symbol).toNat :: rest := by
  have hlen : 0 < (staged_slice lr0 symbol).length := List.length_pos.mpr hne
  have hlen2 : 0 < (staged_slice lr0 symbol).length := hlen
  unfold staged_slice at hlen2
  rw [List.length_take, List.length_drop] at hlen2
  have hbound : (geti lr0.kernel_base symbol).toNat < lr0.kernel_items.length := by
    omega
  have h0 : (staged_slice lr0 symbol)[0]? =
      some (geti lr0.kernel_items (geti lr0.kernel_base symbol).toNat) := by
    unfold staged_slice
    rw [List.getElem?_take, if_pos (by omega), List.getElem?_drop, Nat.add_zero,
      List.getElem?_eq_getElem hbound, geti_eq_getElem _ _ hbound]
  obtain ⟨hd, tl, hc⟩ := List.exists_cons_of_ne_nil hne
  rw [hc, List.getElem?_cons_zero, Option.some.injEq] at h0
  exact ⟨tl, by rw [hc, h0]⟩

theorem getD_core_eq_getElem (l : List Core) (j : Nat) (h : j < l.length) :
    l.getD j default = l[j] := by
  rw [List.getD_eq_getElem?_getD, List.getElem?_eq_getElem h]
  rfl

theorem getD_core_snoc_self (l : List Core) (a : Core) :
    (l ++ [a]).getD l.length default = a := by
  rw [List.getD_eq_getElem?_getD,
    List.getElem?_append_right (Nat.le_refl _), Nat.sub_self]
  rfl

theorem staged_eq_of_fields (lr0 lr0₂ : LR0State)
    (h1 : lr0₂.kernel_base = lr0.kernel_base)
    (h2 : lr0₂.kernel_end = lr0.kernel_end)
    (h3 : lr0₂.kernel_items = lr0.kernel_items) (s : Nat) :
    staged_slice lr0₂ s = staged_slice lr0 s ∧
    staged_key lr0₂ s = staged_key lr0 s := by
  unfold staged_slice staged_key
  rw [h1, h2, h3]
  exact ⟨rfl, rfl⟩

theorem get_state_core (g : Grammar) (lr0 : LR0State) (hinv : coreInv g lr0)
    (symbol : Nat)
    (hne : staged_slice lr0 symbol ≠ [])
    (hS2 : ∀ p ∈ staged_slice lr0 symbol, 1 ≤ p ∧ 0 < geti g.ritem (p.toNat - 1))
    (hS3 : staged_key lr0 symbol < g.nitems) :
    ∀ lr0₂ idx, get_state lr0 symbol = some (lr0₂, idx) →
      coreInv g lr0₂ ∧
      lr0₂.kernel_base = lr0.kernel_base ∧
      lr0₂.kernel_end = lr0.kernel_end ∧
      lr0₂.kernel_items = lr0.kernel_items ∧
      lr0.states.length ≤ lr0₂.states.length ∧
      (∀ j, j < lr0.states.length →
        lr0₂.states.getD j default = lr0.states.getD j default) := by
  intro lr0₂ idx h
  rcases get_state_extend lr0 symbol lr0₂ idx h with ⟨rfl, -⟩ | hcreate
  · exact ⟨hinv, rfl, rfl, rfl, Nat.le_refl _, fun j _ => rfl⟩
  obtain ⟨hss, hst, hkb, hke, hki, hidx, hprobe, hlim⟩ := hcreate
  obtain ⟨hb, hi, he, hsl, hpos, h0items, hstates, hbuckets, hpair⟩ := hinv
  obtain ⟨tl, hhd⟩ := staged_slice_head lr0 symbol hne
  have hhd_mem : geti lr0.kernel_items (geti lr0.kernel_base symbol).toNat ∈
      staged_slice lr0 symbol := by
    rw [hhd]
    exact List.mem_cons_self _ _
  have hhd_pos := hS2 _ hhd_mem
  have hkey : ((staged_key lr0 symbol : Nat) : Int) =
      geti lr0.kernel_items (geti lr0.kernel_base symbol).toNat := by
    unfold staged_key
    omega
  have hstable : ∀ j, j < lr0.states.length →
      lr0₂.states.getD j default = lr0.states.getD j default := by
    intro j hj
    rw [hst]
    exact getD_append_left _ _ _ _ hj
  have hfind : ∀ st ∈ lr0.state_set.getD (staged_key lr0 symbol) [],
      ¬((lr0.states.getD st default).items = staged_slice lr0 symbol) := by
    intro st hst2 hc
    have := List.find?_eq_none.mp hprobe st hst2
    rw [decide_eq_true_eq] at this
    exact this hc
  have hslength : lr0₂.state_set.length = g.nitems := by
    rw [hss, List.length_set]
    exact hsl
  have hbucket_get : ∀ k : Nat, lr0₂.state_set.getD k [] =
      (if staged_key lr0 symbol = k ∧ k < lr0.state_set.length
       then lr0.state_set.getD (staged_key lr0 symbol) [] ++ [lr0.states.length]
       else lr0.state_set.getD k []) := by
    intro k
    rw [hss, getD_set_any]
  have hnewitems : (lr0₂.states.getD lr0.states.length default).items =
      staged_slice lr0 symbol := by
    rw [hst, getD_core_snoc_self]
  refine ⟨⟨hkb ▸ hb, hki ▸ hi, hke ▸ he, hslength, ?_, ?_, ?_, ?_, ?_⟩,
    hkb, hke, hki, ?_, hstable⟩
  · rw [hst, List.length_append]
    omega
  · rw [hstable 0 hpos]
    exact h0items
  · intro i hi0 hilen
    rw [hst, List.length_append] at hilen
    simp only [List.length_cons, List.length_nil] at hilen
    by_cases hiold : i < lr0.states.length
    · obtain ⟨hh, rest, hitems, hh1, hh2, hh3, hh4⟩ := hstates i hi0 hiold
      refine ⟨hh, rest, by rw [hstable i hiold]; exact hitems, hh1, hh2, hh3, ?_⟩
      rw [hbucket_get]
      by_cases hc : staged_key lr0 symbol = hh.toNat ∧ hh.toNat < lr0.state_set.length
      · rw [if_pos hc, hc.1]
        exact List.mem_append.mpr (Or.inl hh4)
      · rw [if_neg hc]
        exact hh4
    · have hieq : i = lr0.states.length := by omega
      subst hieq
      refine ⟨geti lr0.kernel_items (geti lr0.kernel_base symbol).toNat, tl,
        by rw [hnewitems]; exact hhd, hhd_pos.1, hhd_pos.2, ?_, ?_⟩
      · have : (geti lr0.kernel_items (geti lr0.kernel_base symbol).toNat).toNat =
            staged_key lr0 symbol := rfl
        rw [this]
        exact hS3
      · have hkn : (geti lr0.kernel_items
            (geti lr0.kernel_base symbol).toNat).toNat = staged_key lr0 symbol := rfl
        rw [hkn, hbucket_get,
          if_pos ⟨rfl, by rw [hsl]; exact hS3⟩]
        exact List.mem_append.mpr (Or.inr (by simp))
  · intro k st hstk
    rw [hbucket_get] at hstk
    by_cases hc : staged_key lr0 symbol = k ∧ k < lr0.state_set.length
    · rw [if_pos hc] at hstk
      rcases List.mem_append.mp hstk with hm | hm
      · obtain ⟨h1, h2, rest, h3⟩ := hbuckets (staged_key lr0 symbol) st hm
        refine ⟨h1, by rw [hst, List.length_append]; omega, rest, ?_⟩
        rw [hstable st h2, h3, hc.1]
      · rw [List.mem_singleton] at hm
        subst hm
        refine ⟨hpos, by rw [hst, List.length_append]; simp, tl, ?_⟩
        rw [hnewitems, hhd, ← hc.1, hkey]
    · rw [if_neg hc] at hstk
      obtain ⟨h1, h2, rest, h3⟩ := hbuckets k st hstk
      exact ⟨h1, by rw [hst, List.length_append]; omega, rest,
        by rw [hstable st h2]; exact h3⟩
  · rw [hst, List.pairwise_append]
    refine ⟨hpair, List.pairwise_singleton _ _, ?_⟩
    intro a ha b hb2
    rw [List.mem_singleton] at hb2
    subst hb2
    obtain ⟨j, hj, hja⟩ := List.getElem_of_mem ha
    intro hc
    have hgd : lr0.states.getD j default = a := by
      rw [getD_core_eq_getElem _ _ hj, hja]
    rcases Nat.eq_zero_or_pos j with rfl | hj0
    · have hmemhd : geti lr0.kernel_items (geti lr0.kernel_base symbol).toNat ∈
        a.items := by
        rw [hc]
        dsimp only
        rw [hhd]
        exact List.mem_cons_self _ _
      have hmem0 := h0items _ (by rw [← hgd] at hmemhd; exact hmemhd)
      have h2 := hhd_pos.2
      omega
    · obtain ⟨hh, rest, hitems, hh1, hh2, hh3, hh4⟩ := hstates j hj0 hj
      rw [hgd, hc] at hitems
      dsimp only at hitems
      rw [hhd] at hitems
      simp only [List.cons.injEq] at hitems
      have hkeyj : hh.toNat = staged_key lr0 symbol := by
        rw [← hitems.1]
        rfl
      rw [hkeyj] at hh4
      refine hfind j hh4 ?_
      rw [hgd, hc]
  · rw [hst, List.length_append]
    omega

theorem advItems_length (g : Grammar) (l : List Int) (s : Int) :
    (advItems g l s).length = cntSym g l s := by
  unfold advItems cntSym
  rw [List.length_map, ← List.countP_eq_length_filter]

theorem mem_advItems (g : Grammar) (l : List Int) (s : Int) (p : Int) :
    p ∈ advItems g l s ↔ ∃ it ∈ l, geti g.ritem it.toNat = s ∧ p = it + 1 := by
  unfold advItems
  rw [List.mem_map]
  constructor
  · rintro ⟨it, hit, rfl⟩
    have hv := List.of_mem_filter hit
    rw [decide_eq_true_eq] at hv
    exact ⟨it, List.mem_of_mem_filter hit, hv, rfl⟩
  · rintro ⟨it, hit, hv, rfl⟩
    exact ⟨it, List.mem_filter.mpr ⟨hit, by rw [decide_eq_true_eq]; exact hv⟩, rfl⟩

theorem arena_staged_slice (g : Grammar) (item_set : List Int)
    (q : LR0State × List Int) (harena : ArenaInv g item_set q)
    (s : Int) (hs : 0 < s) (hsn : s.toNat < g.nsyms)
    (hcnt : 0 < cntSym g item_set s) :
    staged_slice q.1 s.toNat = advItems g item_set s ∧
    geti q.1.kernel_base s.toNat < geti q.1.kernel_end s.toNat := by
  obtain ⟨hb, hi, he, -, -, hcells⟩ := harena
  obtain ⟨hend, hslice⟩ := hcells s hs hsn
  rw [if_neg (by omega)] at hend
  have hbase : geti q.1.kernel_base s.toNat = (prefix_cnt g s.toNat : Int) := by
    rw [hb]
    exact (kernel_base_of_spec g).2 _ hsn
  constructor
  · unfold staged_slice
    rw [hbase, hend]
    have e1 : ((prefix_cnt g s.toNat : Nat) : Int).toNat = prefix_cnt g s.toNat := by
      omega
    have e2 : ((prefix_cnt g s.toNat : Nat) : Int) +
        ((cntSym g item_set s : Nat) : Int) =
        ((prefix_cnt g s.toNat + cntSym g item_set s : Nat) : Int) := by
      omega
    rw [e1, e2, Int.toNat_natCast]
    dsimp only
    rw [show prefix_cnt g s.toNat + cntSym g item_set s - prefix_cnt g s.toNat =
        cntSym g item_set s from by omega]
    exact hslice
  · rw [hbase, hend]
    omega

theorem staged_conditions (g : Grammar) (hwf : Wf g) (acc : LoopAcc) (ts : Nat)
    (hbase : acc.lr0.kernel_base = kernel_base_of g)
    (hilen : acc.lr0.kernel_items.length = kernel_items_count g)
    (helen : acc.lr0.kernel_end.length = g.nsyms) :
    ∀ s ∈ shift_syms_of g acc ts,
      staged_slice (staged_of g acc ts).1 s.toNat ≠ [] ∧
      (∀ p ∈ staged_slice (staged_of g acc ts).1 s.toNat,
        1 ≤ p ∧ 0 < geti g.ritem (p.toNat - 1)) ∧
      staged_key (staged_of g acc ts).1 s.toNat < g.nitems ∧
      geti (staged_of g acc ts).1.kernel_base s.toNat <
        geti (staged_of g acc ts).1.kernel_end s.toNat := by
  have hr0 : geti g.ritem 0 < 0 := hwf.2.2.2.2.2.1
  have hlen : g.ritem.length ≤ g.nitems := le_of_eq hwf.1
  have harena := new_item_sets_arena g hr0 hlen acc.lr0 hbase hilen helen
    (state_item_set g acc ts) (closure_nodup g _)
    (fun it _ h => wf_vals_all g hwf it h)
  rw [show new_item_sets g acc.lr0 (state_item_set g acc ts) = staged_of g acc ts
    from rfl] at harena
  intro s hs
  have hmem2 : s ∈ (staged_of g acc ts).2 :=
    (List.perm_insertionSort _ _).mem_iff.mp hs
  obtain ⟨hspos, hcnt⟩ := (harena.2.2.2.2.1 s).mp hmem2
  obtain ⟨it, hit, hp⟩ := List.countP_pos_iff.mp hcnt
  rw [decide_eq_true_eq] at hp
  have hsn : s.toNat < g.nsyms := by
    have := wf_vals_all g hwf it (by rw [hp]; exact hspos)
    rw [hp] at this
    exact this
  obtain ⟨hslice, hbe⟩ := arena_staged_slice g (state_item_set g acc ts)
    (staged_of g acc ts) harena s hspos hsn hcnt
  have hS2 : ∀ p ∈ staged_slice (staged_of g acc ts).1 s.toNat,
      1 ≤ p ∧ 0 < geti g.ritem (p.toNat - 1) := by
    intro p hpmem
    rw [hslice] at hpmem
    obtain ⟨it₂, hit₂, hv₂, rfl⟩ := (mem_advItems g _ s p).mp hpmem
    have hit1 : 1 ≤ it₂ := by
      by_contra hcon
      have h0 : it₂.toNat = 0 := by omega
      rw [h0] at hv₂
      omega
    refine ⟨by omega, ?_⟩
    have heq : (it₂ + 1).toNat - 1 = it₂.toNat := by omega
    rw [heq, hv₂]
    exact hspos
  have hne : staged_slice (staged_of g acc ts).1 s.toNat ≠ [] := by
    rw [hslice]
    intro hcon
    have hcl := congrArg List.length hcon
    rw [advItems_length] at hcl
    simp at hcl
    omega
  refine ⟨hne, hS2, ?_, hbe⟩
  obtain ⟨rest, hhd⟩ := staged_slice_head (staged_of g acc ts).1 s.toNat hne
  have hhdmem : geti (staged_of g acc ts).1.kernel_items
      (geti (staged_of g acc ts).1.kernel_base s.toNat).toNat ∈
      staged_slice (staged_of g acc ts).1 s.toNat := by
    rw [hhd]
    exact List.mem_cons_self _ _
  obtain ⟨hh1, hh2⟩ := hS2 _ hhdmem
  have hsucc := wf_pos_succ_lt g hwf
    ((geti (staged_of g acc ts).1.kernel_items
      (geti (staged_of g acc ts).1.kernel_base s.toNat).toNat).toNat - 1) hh2
  show (geti (staged_of g acc ts).1.kernel_items
      (geti (staged_of g acc ts).1.kernel_base s.toNat).toNat).toNat < g.nitems
  omega

theorem append_states_core (g : Grammar) : ∀ (ss : List Int) (lr0 : LR0State),
    coreInv g lr0 →
    (∀ s ∈ ss, staged_slice lr0 s.toNat ≠ [] ∧
      (∀ p ∈ staged_slice lr0 s.toNat, 1 ≤ p ∧ 0 < geti g.ritem (p.toNat - 1)) ∧
      staged_key lr0 s.toNat < g.nitems) →
    ∀ lr0₂ dests, append_states lr0 ss = some (lr0₂, dests) →
      coreInv g lr0₂ := by
  intro ss
  induction ss with
  | nil =>
    intro lr0 hinv _ lr0₂ dests h
    unfold append_states at h
    simp only [Option.some.injEq, Prod.mk.injEq] at h
    rw [← h.1]
    exact hinv
  | cons s rest ih =>
    intro lr0 hinv hcond lr0₂ dests h
    unfold append_states at h
    cases hg : get_state lr0 s.toNat with
    | none => rw [hg] at h; simp at h
    | some p =>
      obtain ⟨lr0₁, st⟩ := p
      rw [hg] at h
      dsimp only at h
      obtain ⟨h1, h2, h3⟩ := hcond s (List.mem_cons_self s rest)
      obtain ⟨hinv₁, hb1, he1, hi1, hlen1, hstab1⟩ :=
        get_state_core g lr0 hinv s.toNat h1 h2 h3 lr0₁ st hg
      cases ha : append_states lr0₁ rest with
      | none => rw [ha] at h; simp at h
      | some p2 =>
        obtain ⟨lr0₃, ds⟩ := p2
        rw [ha] at h
        simp only [Option.some.injEq, Prod.mk.injEq] at h
        have hcond₁ : ∀ s₂ ∈ rest, staged_slice lr0₁ s₂.toNat ≠ [] ∧
            (∀ p ∈ staged_slice lr0₁ s₂.toNat,
              1 ≤ p ∧ 0 < geti g.ritem (p.toNat - 1)) ∧
            staged_key lr0₁ s₂.toNat < g.nitems := by
          intro s₂ hs₂
          obtain ⟨c1, c2, c3⟩ := hcond s₂ (List.mem_cons_of_mem _ hs₂)
          obtain ⟨e1, e2⟩ := staged_eq_of_fields lr0 lr0₁ hb1 he1 hi1 s₂.toNat
          exact ⟨by rw [e1]; exact c1, by rw [e1]; exact c2, by rw [e2]; exact c3⟩
        have hres := ih lr0₁ hinv₁ hcond₁ lr0₃ ds ha
        rw [← h.1]
        exact hres

theorem processState_core (g : Grammar) (hwf : Wf g) (acc : LoopAcc) (ts : Nat)
    (hinv : coreInv g acc.lr0) :
    ∀ acc₂, processState g acc ts = some acc₂ → coreInv g acc₂.lr0 := by
  intro acc₂ h
  obtain ⟨hb, hi, he, hsl, hpos, h0items, hstates, hbuckets, hpair⟩ := hinv
  have hq : coreInv g (staged_of g acc ts).1 := by
    have hr0 : geti g.ritem 0 < 0 := hwf.2.2.2.2.2.1
    have hlen : g.ritem.length ≤ g.nitems := le_of_eq hwf.1
    have harena := new_item_sets_arena g hr0 hlen acc.lr0 hb hi he
      (state_item_set g acc ts) (closure_nodup g _)
      (fun it _ hv => wf_vals_all g hwf it hv)
    rw [show new_item_sets g acc.lr0 (state_item_set g acc ts) = staged_of g acc ts
      from rfl] at harena
    obtain ⟨hps, hpss, -⟩ := new_item_sets_preserves g acc.lr0 (state_item_set g acc ts)
    rw [show new_item_sets g acc.lr0 (state_item_set g acc ts) = staged_of g acc ts
      from rfl] at hps hpss
    refine ⟨harena.1, harena.2.1, harena.2.2.1, by rw [hpss]; exact hsl,
      by rw [hps]; exact hpos, by rw [hps]; exact h0items,
      by rw [hps, hpss]; exact hstates, by rw [hps, hpss]; exact hbuckets,
      by rw [hps]; exact hpair⟩
  have hconds := staged_conditions g hwf acc ts hb hi he
  simp only [processState] at h
  rw [show new_item_sets g acc.lr0 (closure g ((acc.lr0.states.getD ts default).items))
    = staged_of g acc ts from rfl] at h
  rw [show sort_shift_symbols (staged_of g acc ts).2 = shift_syms_of g acc ts
    from rfl] at h
  cases ha : append_states (staged_of g acc ts).1 (shift_syms_of g acc ts) with
  | none => rw [ha] at h; simp at h
  | some p =>
    obtain ⟨lr0₃, shift_set⟩ := p
    rw [ha] at h
    simp only [Option.some.injEq] at h
    have hres := append_states_core g (shift_syms_of g acc ts) (staged_of g acc ts).1
      hq (fun s hsm => ⟨(hconds s hsm).1, (hconds s hsm).2.1, (hconds s hsm).2.2.1⟩)
      lr0₃ shift_set ha
    rw [← h]
    exact hres

theorem getD_replicate_bucket (n k : Nat) :
    (List.replicate n ([] : List Nat)).getD k [] = [] := by
  rw [List.getD_eq_getElem?_getD, List.getElem?_replicate]
  by_cases hk : k < n
  · rw [if_pos hk]
    rfl
  · rw [if_neg hk]
    rfl

theorem initialize_states_items (g : Grammar) (d dr : List Int) :
    (initialize_states g d dr).length = 1 ∧
    ((initialize_states g d dr).getD 0 default).items =
      ((dr.drop (geti d g.start_symbol).toNat).takeWhile (fun r => 0 ≤ r)).map
        (fun r => geti g.rrhs r.toNat) := by
  unfold initialize_states
  exact ⟨rfl, rfl⟩

theorem lhs_rules_rrhs (g : Grammar) (hwf : Wf g) (p : Int)
    (hp : p ∈ (lhs_rules g g.start_symbol).map (fun r => geti g.rrhs r.toNat)) :
    1 ≤ p ∧ geti g.ritem (p.toNat - 1) < 0 := by
  obtain ⟨x, hx, rfl⟩ := List.mem_map.mp hp
  obtain ⟨r, hr, rfl⟩ := List.mem_map.mp hx
  have hflt := List.mem_filter.mp hr
  rw [List.mem_range] at hflt
  have hcond := hflt.2
  rw [decide_eq_true_eq] at hcond
  have hr1 : 1 ≤ r := by
    by_contra hc
    have hr0 : r = 0 := by omega
    subst hr0
    rw [hwf.2.2.2.2.2.2.1] at hcond
    have := hwf.2.2.2.1
    omega
  have hpk : r ∈ packedRules g := by
    unfold packedRules
    rw [List.mem_range'_1]
    exact ⟨hr1, by omega⟩
  have hpred := hwf.2.2.2.2.2.2.2.2.2.2 r hpk
  rw [Int.toNat_natCast]
  exact hpred

theorem initial_core_inv (g : Grammar) (hwf : Wf g) :
    coreInv g
      { state_set := List.replicate g.nitems [],
        states := initialize_states g (set_derives g).1 (set_derives g).2,
        kernel_base := kernel_base_of g,
        kernel_end := List.replicate g.nsyms (-1),
        kernel_items := List.replicate (kernel_items_count g) 0 } := by
  obtain ⟨hone, hitems⟩ := initialize_states_items g (set_derives g).1 (set_derives g).2
  have hspan := set_derives_span g g.start_symbol (Nat.le_refl _) hwf.2.2.2.2.1
  have htw : ((set_derives g).2.drop
      (geti (set_derives g).1 g.start_symbol).toNat).takeWhile (fun r => 0 ≤ r) =
      lhs_rules g g.start_symbol := by
    rw [hspan]
    refine takeWhile_append_neg _ _ _ ?_ (by omega)
    intro y hy
    obtain ⟨r, -, rfl⟩ := List.mem_map.mp hy
    exact Int.natCast_nonneg r
  refine ⟨rfl, List.length_replicate .., List.length_replicate ..,
    List.length_replicate .., by rw [hone]; omega, ?_, ?_, ?_, ?_⟩
  · intro p hp
    rw [hitems, htw] at hp
    exact lhs_rules_rrhs g hwf p hp
  · intro i hi0 hilen
    rw [hone] at hilen
    omega
  · intro k st hst
    rw [getD_replicate_bucket] at hst
    simp at hst
  · rw [show (initialize_states g (set_derives g).1 (set_derives g).2) =
      [{ accessing_symbol := 0,
         items := (((set_derives g).2.drop
           (geti (set_derives g).1 g.start_symbol).toNat).takeWhile
             (fun r => 0 ≤ r)).map (fun r => geti g.rrhs r.toNat) }] from rfl]
    exact List.pairwise_singleton _ _

theorem lr0Loop_core (g : Grammar) (hwf : Wf g) :
    ∀ (fuel : Nat) (acc : LoopAcc) (ts : Nat) (accF : LoopAcc),
      lr0Loop g fuel acc ts = some accF → coreInv g acc.lr0 →
      coreInv g accF.lr0 ∧
      accF.lr0.states.getD 0 default = acc.lr0.states.getD 0 default := by
  intro fuel
  induction fuel with
  | zero =>
    intro acc ts accF h hinv
    unfold lr0Loop at h
    by_cases hc : ts < acc.lr0.states.length
    · rw [if_pos hc] at h
      simp at h
    · rw [if_neg hc] at h
      simp only [Option.some.injEq] at h
      subst h
      exact ⟨hinv, rfl⟩
  | succ fuel ih =>
    intro acc ts accF h hinv
    unfold lr0Loop at h
    by_cases hc : ts < acc.lr0.states.length
    · rw [if_pos hc] at h
      cases hp : processState g acc ts with
      | none =>
        rw [hp] at h
        simp at h
      | some acc₂ =>
        rw [hp] at h
        dsimp only at h
        have hinv₂ := processState_core g hwf acc ts hinv acc₂ hp
        obtain ⟨hf, h0⟩ := ih acc₂ (ts + 1) accF h hinv₂
        refine ⟨hf, ?_⟩
        rw [h0]
        exact (processState_extend g acc ts acc₂ hp).2.1 0 hinv.2.2.2.2.1
    · rw [if_neg hc] at h
      simp only [Option.some.injEq] at h
      subst h
      exact ⟨hinv, rfl⟩

/-- C2: for every well-formed grammar, no two distinct states of the
final table have identical kernel item sequences: get_state only creates
a state after the bucket probe has ruled out every existing state with
the same first item, and states with different first items differ
already at their heads. -/
theorem compute_lr0_states_distinct (g : Grammar) (hwf : Wf g) (out : LR0Output)
    (h : compute_lr0 g = some out) :
    List.Pairwise (fun a b => a.items ≠ b.items) out.states := by
  simp only [compute_lr0] at h
  cases hl : lr0Loop g 0x7fff
      { lr0 := {
          state_set := List.replicate g.nitems [],
          states := initialize_states g (set_derives g).1 (set_derives g).2,
          kernel_base := kernel_base_of g,
          kernel_end := List.replicate g.nsyms (-1),
          kernel_items := List.replicate (kernel_items_count g) 0 },
        reductions := [], shifts := [] } 0 with
  | none =>
    rw [hl] at h
    simp at h
  | some accF =>
    rw [hl] at h
    simp only [Option.some.injEq] at h
    have hres := lr0Loop_core g hwf 0x7fff _ 0 accF hl (initial_core_inv g hwf)
    rw [← h]
    exact hres.1.2.2.2.2.2.2.2.2

/-- The full output of compute_lr0 on the well-formed grammar gW. -/
def outW : LR0Output :=
  { states := [⟨0, [1]⟩, ⟨1, [4]⟩, ⟨3, [2]⟩],
    shifts := [⟨0, [1, 2]⟩],
    reductions := [⟨0, [3]⟩, ⟨1, [2]⟩, ⟨2, [1]⟩],
    nullable := [false, false, true, true],
    derives := [0, 0, 0, 2],
    derives_rules := [1, -1, 2, 3, -1] }

/-- Witness for C2 at the concrete well-formed grammar gW. -/
theorem compute_lr0_states_distinct_witness :
    (Wf gW ∧ compute_lr0 gW = some outW) ∧
    List.Pairwise (fun a b => a.items ≠ b.items) outW.states :=
  ⟨⟨by decide, by decide⟩,
    compute_lr0_states_distinct gW (by decide) outW (by decide)⟩

/-- C10: for every well-formed grammar with at least one rule whose
left-hand side is the start symbol, every state of the final table has a
non-empty items vector; moreover, under the builder invariant, every
symbol recorded in the shift-symbol list of a processed state has a
staged arena region with kernel_end strictly above kernel_base, a
non-empty staged slice, and the kernel_items read at kernel_base inside
get_state is in bounds. -/
theorem states_nonempty (g : Grammar) (hwf : Wf g)
    (hstart : ∃ r ∈ packedRules g, geti g.rlhs r = (g.start_symbol : Int))
    (out : LR0Output) (h : compute_lr0 g = some out) :
    (∀ c ∈ out.states, c.items ≠ []) ∧
    (∀ (acc : LoopAcc) (ts : Nat), coreInv g acc.lr0 →
      ∀ s ∈ shift_syms_of g acc ts,
        geti (staged_of g acc ts).1.kernel_base s.toNat <
          geti (staged_of g acc ts).1.kernel_end s.toNat ∧
        staged_slice (staged_of g acc ts).1 s.toNat ≠ [] ∧
        (geti (staged_of g acc ts).1.kernel_base s.toNat).toNat <
          (staged_of g acc ts).1.kernel_items.length) := by
  constructor
  · simp only [compute_lr0] at h
    cases hl : lr0Loop g 0x7fff
        { lr0 := {
            state_set := List.replicate g.nitems [],
            states := initialize_states g (set_derives g).1 (set_derives g).2,
            kernel_base := kernel_base_of g,
            kernel_end := List.replicate g.nsyms (-1),
            kernel_items := List.replicate (kernel_items_count g) 0 },
          reductions := [], shifts := [] } 0 with
    | none =>
      rw [hl] at h
      simp at h
    | some accF =>
      rw [hl] at h
      simp only [Option.some.injEq] at h
      obtain ⟨hinvF, h0F⟩ :=
        lr0Loop_core g hwf 0x7fff _ 0 accF hl (initial_core_inv g hwf)
      intro c hc
      have hcs : c ∈ accF.lr0.states := by
        rw [← h] at hc
        exact hc
      obtain ⟨j, hj, hja⟩ := List.getElem_of_mem hcs
      have hgd : accF.lr0.states.getD j default = c := by
        rw [getD_core_eq_getElem _ _ hj, hja]
      rcases Nat.eq_zero_or_pos j with rfl | hj0
      · rw [← hgd, h0F]
        obtain ⟨hone, hitems⟩ :=
          initialize_states_items g (set_derives g).1 (set_derives g).2
        rw [hitems]
        have hspan := set_derives_span g g.start_symbol (Nat.le_refl _)
          hwf.2.2.2.2.1
        have htw : ((set_derives g).2.drop
            (geti (set_derives g).1 g.start_symbol).toNat).takeWhile
              (fun r => 0 ≤ r) = lhs_rules g g.start_symbol := by
          rw [hspan]
          refine takeWhile_append_neg _ _ _ ?_ (by omega)
          intro y hy
          obtain ⟨r, -, rfl⟩ := List.mem_map.mp hy
          exact Int.natCast_nonneg r
        rw [htw]
        obtain ⟨r, hrp, hrl⟩ := hstart
        have hrm : (r : Int) ∈ lhs_rules g g.start_symbol := by
          unfold lhs_rules
          refine List.mem_map.mpr ⟨r, ?_, rfl⟩
          refine List.mem_filter.mpr ⟨?_, by rw [decide_eq_true_eq]; exact hrl⟩
          rw [List.mem_range]
          have := List.mem_range'_1.mp hrp
          omega
        intro hcon
        rw [List.map_eq_nil_iff] at hcon
        rw [hcon] at hrm
        exact List.not_mem_nil _ hrm
      · obtain ⟨hh, rest, hitems, -⟩ :=
          hinvF.2.2.2.2.2.2.1 j hj0 hj
        rw [hgd] at hitems
        rw [hitems]
        exact List.cons_ne_nil _ _
  · intro acc ts hinv s hs
    obtain ⟨hne, -, -, hbe⟩ :=
      staged_conditions g hwf acc ts hinv.1 hinv.2.1 hinv.2.2.1 s hs
    refine ⟨hbe, hne, ?_⟩
    have hlen : 0 < (staged_slice (staged_of g acc ts).1 s.toNat).length :=
      List.length_pos.mpr hne
    unfold staged_slice at hlen
    rw [List.length_take, List.length_drop] at hlen
    omega

/-- Witness for C10 at the concrete well-formed grammar gW. -/
theorem states_nonempty_witness :
    (Wf gW ∧ (∃ r ∈ packedRules gW, geti gW.rlhs r = (gW.start_symbol : Int)) ∧
      compute_lr0 gW = some outW) ∧
    (∀ c ∈ outW.states, c.items ≠ []) :=
  ⟨⟨by decide, by decide, by decide⟩,
    (states_nonempty gW (by decide) (by decide) outW (by decide)).1⟩

end Racc

